import Mathlib

/-!
# Memory profiler (`libs/profiling/memory_profiler.cpp`)

A shallow embedding of the allocation profiler: the two hash tables, the
readiness flag, the shared `track` text buffer, the hooks `operator new` and
`makeDelete`, the lifecycle functions `initTables` / `deinitTables` and the
reporter `printTables`.

Modelling conventions.

* `std::unordered_map` is an association list; the iteration order of the map is
  the order of the list.  `find`, `erase`, `operator[]` are `tfind`, `terase`,
  `tindex`, and an update through a reference or iterator is `tmodify`.
* `uint64_t` / `size_t` fields are natural numbers, every arithmetic operation
  on them is reduced modulo `2 ^ 64`.
* A `char` array is the list of its leading bytes; a byte beyond the end of the
  list reads as `0`.  The static array `track` starts as the empty list (static
  storage is zero-initialised).  The `stack` array of a new record lies in memory
  obtained from `malloc` and only `stack[0]` is set by the constructor: the bytes
  found after it are an argument, `junk`.
* The arrays have their capacity: `track` has `kBufferSize + 1` bytes and `stack`
  has `kBufferSize`.  A call of `operator new` that reads or writes a byte
  outside of them has no defined behaviour and its result is `none`
  (`inBounds`).  The helper functions `formatTrack` and `recordAllocation`
  compute on plain lists and are used by `operatorNew` inside the capacity only.
* What the C library and the operating system supply is an argument of the
  hook: `ptr` is the value returned by `malloc(size)`, `usable` the value of
  `malloc_usable_size(ptr)`, `frames` the lines `backtrace_symbols` yields for
  the current call stack, `hashImpl` the function `std::_Hash_impl::hash`.
* The functions `operatorNew`, `makeDelete`, `printTables`, `initTables` and
  `deinitTables` run a whole call on one thread.  The section on two threads
  splits a hook at the point where it takes the mutex: the load of `table_ready`
  before the lock, and the block under the lock.
-/

namespace MemoryProfiler

/-! ## Constants and byte buffers -/

/-- Capacity of the text buffers, `kBufferSize = 32 * 1024`. -/
def kBufferSize : Nat := 32 * 1024

/-- Maximal number of captured frames, `kStackSize = 10`. -/
def kStackSize : Nat := 10

/-- Modulus of `uint64_t` arithmetic. -/
def u64 : Nat := 2 ^ 64

/-- The terminating byte of a C string. -/
def NUL : Char := Char.ofNat 0

/-- Byte `i` of a buffer. -/
def bufGet (buf : List Char) (i : Nat) : Char := buf.getD i NUL

/-- The `n` bytes of a buffer starting at offset `off`. -/
def bufRead (buf : List Char) (off n : Nat) : List Char :=
  (List.range n).map (fun i => bufGet buf (off + i))

/-- Store `data` into a buffer at offset `off`. -/
def bufWrite (buf : List Char) (off : Nat) (data : List Char) : List Char :=
  (buf ++ List.replicate (off - buf.length) NUL).take off ++ data
    ++ buf.drop (off + data.length)

/-- The C string that starts at the beginning of a buffer. -/
def cstr (buf : List Char) : List Char := buf.takeWhile (fun c => c != NUL)

/-- Call `snprintf(buf + off, limit, ...)` whose expanded text is `text`: at most
`limit - 1` bytes of the text are stored, followed by a `NUL`; the value returned
is the length of the whole text. -/
def snprintf (buf : List Char) (off limit : Nat) (text : List Char) : List Char × Nat :=
  (bufWrite buf off (text.take (limit - 1) ++ [NUL]), text.length)

/-! ## Tables -/

/-- Lookup `unordered_map::find`. -/
def tfind {V : Type} (k : Nat) (t : List (Nat × V)) : Option V :=
  (t.find? (fun e => e.1 == k)).map Prod.snd

/-- Removal `unordered_map::erase`. -/
def terase {V : Type} (k : Nat) (t : List (Nat × V)) : List (Nat × V) :=
  t.filter (fun e => e.1 != k)

/-- Update in place of the value stored under `k`. -/
def tmodify {V : Type} (k : Nat) (f : V → V) (t : List (Nat × V)) : List (Nat × V) :=
  t.map (fun e => if e.1 = k then (e.1, f e.2) else e)

/-- Access `unordered_map::operator[]`: a missing key is inserted with the
value-initialised value `dflt`. -/
def tindex {V : Type} (k : Nat) (dflt : V) (t : List (Nat × V)) : List (Nat × V) :=
  if (tfind k t).isSome then t else (k, dflt) :: t

/-- The keys of a table. -/
def tkeys {V : Type} (t : List (Nat × V)) : List Nat := t.map Prod.fst

/-- Record `AllocationDescription`. -/
structure AllocationDescription where
  count : Nat
  alloc_size : Nat
  stack : List Char
deriving DecidableEq, Repr

/-- The default constructor: `count(0), alloc_size(0)`, `stack[0] = 0`.  No other
byte of `stack` is set: `junk` is what the memory of the new record holds in the
`kBufferSize - 1` bytes after `stack[0]`. -/
def AllocationDescription.init (junk : List Char) : AllocationDescription :=
  { count := 0, alloc_size := 0, stack := NUL :: junk.take (kBufferSize - 1) }

/-- The global state of the translation unit. -/
structure State where
  table_ready : Bool
  allocationsTable : List (Nat × AllocationDescription)
  pointersTable : List (Nat × Nat)
  track : List Char
deriving DecidableEq, Repr

/-! ## Lifecycle -/

/-- Function `profiler::initTables`. -/
def initTables (st : State) : State :=
  { st with allocationsTable := [], pointersTable := [], table_ready := true }

/-- Function `profiler::deinitTables`. -/
def deinitTables (st : State) : State :=
  { st with table_ready := false, allocationsTable := [], pointersTable := [] }

/-- The state of the process before `initTables` was ever called. -/
def startState : State :=
  { table_ready := false, allocationsTable := [], pointersTable := [], track := [] }

/-! ## `operator new` -/

/-- The loop `for (ix < s) pos += snprintf(track + pos, kBufferSize, "%s\n", names[ix])`.
The limit passed to `snprintf` is `kBufferSize` at every offset, and `pos` advances
by the length of the whole line even when the line was cut.  The function
computes on a plain list and a natural number; `inBounds` says when the writes
stay inside `track` (then `pos ≤ kBufferSize + 1`, far inside the range of `int`). -/
def formatTrack : List Char → Nat → List (List Char) → List Char × Nat
  | track, pos, [] => (track, pos)
  | track, pos, name :: rest =>
    let r := snprintf track pos kBufferSize (cstr name ++ ['\n'])
    formatTrack r.1 (pos + r.2) rest

/-- The statements of `operator new` on one record: the stack text is copied when
`stack[0]` is zero, then `++count` and `alloc_size += malloc_usable_size(ptr)`.
The copy is computed on a plain list; `inBounds` says when the `pos + 1` bytes
fit the `kBufferSize` bytes of `stack`. -/
def recordAllocation (track : List Char) (pos usable : Nat)
    (entry : AllocationDescription) : AllocationDescription :=
  { count := (entry.count + 1) % u64
    alloc_size := (entry.alloc_size + usable) % u64
    stack := if bufGet entry.stack 0 = NUL
      then bufWrite entry.stack 0 (bufRead track 0 (pos + 1)) else entry.stack }

/-- The formatted stack text `operator new` hashes for `frames` when the buffer
holds `track`: the `pos` bytes at the start of the buffer after the loop. -/
def stackText (track : List Char) (frames : List (List Char)) : List Char :=
  let r := formatTrack track 0 (frames.take kStackSize)
  bufRead r.1 0 r.2

/-- The hash `operator new` computes for `frames` when the buffer holds `track`. -/
def stackHash (hashImpl : List Char → Nat) (track : List Char)
    (frames : List (List Char)) : Nat :=
  hashImpl (stackText track frames)

/-- The offset just past the last byte stored by `snprintf(buf + off, limit, ...)`
whose expanded text is `text` (the bytes stored and the `NUL`). -/
def snprintfEnd (off limit : Nat) (text : List Char) : Nat :=
  off + (text.take (limit - 1) ++ [NUL]).length

/-- The end offsets of the writes made by the loop of `operator new`, one for
every frame, when the loop starts at `pos`. -/
def trackWriteEnds : Nat → List (List Char) → List Nat
  | _, [] => []
  | pos, name :: rest =>
    snprintfEnd pos kBufferSize (cstr name ++ ['\n'])
      :: trackWriteEnds (pos + (cstr name ++ ['\n']).length) rest

/-- The lines `"%s\n"` of the given frames, one after the other. -/
def linesText : List (List Char) → List Char
  | [] => []
  | name :: rest => cstr name ++ ['\n'] ++ linesText rest

/-- The text `operator new` formats for a call stack: the lines of its first
`kStackSize` frames. -/
def formattedText (frames : List (List Char)) : List Char :=
  linesText (frames.take kStackSize)

/-- The number of bytes of the lines `operator new` formats for `frames`; the
loop leaves this number in `pos`. -/
def textLength (frames : List (List Char)) : Nat :=
  ((frames.take kStackSize).map (fun n => (cstr n ++ ['\n']).length)).sum

/-- The formatted text of `frames` and its terminating `NUL` fit the `kBufferSize`
bytes of a `stack` array (and so the `kBufferSize + 1` bytes of `track`). -/
def stackFits (frames : List (List Char)) : Bool :=
  decide (textLength frames < kBufferSize)

/-- Every access `operator new` makes to the arrays lies inside them: each
`snprintf` of the loop ends inside the `kBufferSize + 1` bytes of `track`, the
`pos` bytes hashed lie inside `track`, and `memcpy`, which runs when the record
is new or has `stack[0] == 0`, copies `pos + 1` bytes that fit the `kBufferSize`
bytes of `stack`. -/
def inBounds (hashImpl : List Char → Nat) (st : State) (frames : List (List Char)) : Bool :=
  let names := frames.take kStackSize
  let r := formatTrack st.track 0 names
  (trackWriteEnds 0 names).all (fun e => decide (e ≤ kBufferSize + 1)) &&
    decide (r.2 ≤ kBufferSize + 1) &&
    (decide (r.2 + 1 ≤ kBufferSize) ||
      match tfind (hashImpl (bufRead r.1 0 r.2)) st.allocationsTable with
      | some entry => bufGet entry.stack 0 != NUL
      | none => false)

/-- The statements of `operator new(size_t)` (lines 159-183), computed on plain
lists; the result is the new state and the pointer returned to the caller. -/
def operatorNewBody (hashImpl : List Char → Nat) (st : State) (ptr usable : Nat)
    (frames : List (List Char)) (junk : List Char) : State × Nat :=
  if st.table_ready then
    let r := formatTrack st.track 0 (frames.take kStackSize)
    let hash := hashImpl (bufRead r.1 0 r.2)
    ({ table_ready := st.table_ready
       allocationsTable := tmodify hash (recordAllocation r.1 r.2 usable)
         (tindex hash (AllocationDescription.init junk) st.allocationsTable)
       pointersTable := tmodify ptr (fun _ => hash) (tindex ptr 0 st.pointersTable)
       track := r.1 }, ptr)
  else (st, ptr)

/-- Function `operator new(size_t)`.  The result is `none` when the engine is
ready and the call accesses a byte outside `track` or outside the `stack` of the
record (the behaviour is undefined); otherwise it is the new state and the
pointer returned to the caller. -/
def operatorNew (hashImpl : List Char → Nat) (st : State) (ptr usable : Nat)
    (frames : List (List Char)) (junk : List Char) : Option (State × Nat) :=
  if st.table_ready = true ∧ inBounds hashImpl st frames = false then none
  else some (operatorNewBody hashImpl st ptr usable frames junk)

/-! ## `makeDelete` -/

/-- What one call of `makeDelete` did. -/
structure DeleteOutcome where
  state : State
  reachedAssert : Bool
  freed : List Nat
deriving DecidableEq, Repr

/-- The statements of `makeDelete` on the record found:
`alloc_size -= malloc_usable_size(ptr)` and `--count`. -/
def recordDeallocation (usable : Nat) (entry : AllocationDescription) :
    AllocationDescription :=
  { entry with
    alloc_size := (entry.alloc_size + (u64 - usable % u64)) % u64
    count := (u64 - 1 + entry.count) % u64 }

/-- Function `makeDelete`, the body of both `operator delete`.  The result is
`none` when the assertion `it_hash != allocationsTable().end()` fails. -/
def makeDelete (st : State) (ptr usable : Nat) : Option DeleteOutcome :=
  if st.table_ready then
    match tfind ptr st.pointersTable with
    | some hash =>
      match tfind hash st.allocationsTable with
      | none => none
      | some entry =>
        let updated := tmodify hash (recordDeallocation usable) st.allocationsTable
        some
          { state :=
              { st with
                pointersTable := terase ptr st.pointersTable
                allocationsTable :=
                  if (recordDeallocation usable entry).count = 0
                  then terase hash updated else updated }
            reachedAssert := true
            freed := [ptr] }
    | none => some { state := st, reachedAssert := false, freed := [ptr] }
  else some { state := st, reachedAssert := false, freed := [ptr] }

/-! ## `printTables` -/

/-- The comparison passed to `std::sort`. -/
def bySizeDesc (a b : AllocationDescription) : Prop := a.alloc_size > b.alloc_size

instance : DecidableRel bySizeDesc := fun a b => Nat.decLt b.alloc_size a.alloc_size

/-- The call `std::sort(descriptors.begin(), descriptors.end(), cmp)`.  The
standard fixes the result up to the order of elements that compare equal; the
model sorts by insertion. -/
def stdSort (descriptors : List AllocationDescription) : List AllocationDescription :=
  descriptors.insertionSort bySizeDesc

/-- Expansion of `"<TRACE> count: %llu, allocated: %llu\n"`. -/
def traceHeader (item : AllocationDescription) : List Char :=
  "<TRACE> count: ".toList ++ Nat.toDigits 10 item.count
    ++ ", allocated: ".toList ++ Nat.toDigits 10 item.alloc_size ++ ['\n']

/-- Expansion of `"<TRACE> count: %llu, allocated: %llu\n%s"` with `item->stack`. -/
def traceText (item : AllocationDescription) : List Char :=
  traceHeader item ++ cstr item.stack

/-- Output of `printf(fmt)` called without further arguments: `%%` prints one
`%`, any other conversion has no argument to read and its behaviour is
undefined (`none`). -/
def printfFormat : List Char → Option (List Char)
  | [] => some []
  | c :: rest =>
    if c = '%' then
      match rest with
      | [] => none
      | d :: rest2 => if d = '%' then (printfFormat rest2).map (fun o => '%' :: o) else none
    else (printfFormat rest).map (fun o => c :: o)

/-- The loop over the sorted descriptors: `snprintf(track, kBufferSize, ...)`
followed by `printf(track)`. -/
def printLoop : List Char → List AllocationDescription →
    List Char × List (Option (List Char))
  | track, [] => (track, [])
  | track, item :: rest =>
    let t := (snprintf track 0 kBufferSize (traceText item)).1
    let r := printLoop t rest
    (r.1, printfFormat (cstr t) :: r.2)

/-- Function `profiler::printTables`; the result is the new state and the list of
the blocks written to the standard output. -/
def printTables (st : State) : State × List (Option (List Char)) :=
  if st.table_ready then
    let r := printLoop st.track (stdSort (st.allocationsTable.map Prod.snd))
    ({ st with track := r.1 }, r.2)
  else (st, [])

/-! ## Traces -/

/-- The addresses whose pointer-table entry holds the hash `h`. -/
def liveAddrs (ptrs : List (Nat × Nat)) (h : Nat) : List Nat :=
  (ptrs.filter (fun e => e.2 == h)).map Prod.fst

/-- One intercepted call. -/
inductive Op where
  | alloc (ptr usable : Nat) (frames : List (List Char)) (junk : List Char)
  | dealloc (ptr usable : Nat)
deriving DecidableEq, Repr

/-- Run one intercepted call; `none` when `operator new` leaves the arrays or the
assertion of `makeDelete` fails. -/
def step (hashImpl : List Char → Nat) (st : State) : Op → Option State
  | Op.alloc ptr usable frames junk =>
    (operatorNew hashImpl st ptr usable frames junk).map Prod.fst
  | Op.dealloc ptr usable => (makeDelete st ptr usable).map DeleteOutcome.state

/-- Run a sequence of intercepted calls. -/
def run (hashImpl : List Char → Nat) : State → List Op → Option State
  | st, [] => some st
  | st, op :: rest => (step hashImpl st op).bind (fun st1 => run hashImpl st1 rest)

/-! ## Call sequences -/

/-- One allocation: the pointer `malloc` returned, its usable size, the frames
of the call site, the bytes found in the memory of a new record. -/
structure AllocCall where
  ptr : Nat
  usable : Nat
  frames : List (List Char)
  junk : List Char
deriving DecidableEq, Repr

/-- One allocation immediately followed by the deallocation of the pointer that
`operator new` returned; `usableAtFree` is what `malloc_usable_size` reports at
the deallocation. -/
def allocThenFree (hashImpl : List Char → Nat) (st : State) (c : AllocCall)
    (usableAtFree : Nat) : Option State :=
  (operatorNew hashImpl st c.ptr c.usable c.frames c.junk).bind
    (fun r => (makeDelete r.1 r.2 usableAtFree).map DeleteOutcome.state)

/-- A sequence of allocations, each immediately deallocated. -/
def runPaired (hashImpl : List Char → Nat) : State → List (AllocCall × Nat) → Option State
  | st, [] => some st
  | st, c :: rest =>
    (allocThenFree hashImpl st c.1 c.2).bind (fun st1 => runPaired hashImpl st1 rest)

/-- A sequence of allocations. -/
def allocAll (hashImpl : List Char → Nat) : State → List AllocCall → Option State
  | st, [] => some st
  | st, c :: rest =>
    (operatorNew hashImpl st c.ptr c.usable c.frames c.junk).bind
      (fun r => allocAll hashImpl r.1 rest)

/-- A sequence of deallocations, each given as the pointer and the usable size
reported for it. -/
def freeAll : State → List (Nat × Nat) → Option State
  | st, [] => some st
  | st, d :: rest =>
    (makeDelete st d.1 d.2).bind (fun r => freeAll r.state rest)

/-- Every allocation of the sequence formats the stack text `text`; the sequence
is followed as long as `operator new` completes. -/
def allSameText (hashImpl : List Char → Nat) (text : List Char) :
    State → List AllocCall → Bool
  | _, [] => true
  | st, c :: rest =>
    decide (stackText st.track c.frames = text) &&
      match operatorNew hashImpl st c.ptr c.usable c.frames c.junk with
      | some r => allSameText hashImpl text r.1 rest
      | none => true

/-- Every call of the sequence belongs to the site with hash `h`: an allocation
hashes to `h`, a deallocation frees a pointer whose stored hash is `h` (or an
untracked pointer).  The sequence is followed as long as its calls complete. -/
def touchesOnly (hashImpl : List Char → Nat) (h : Nat) : State → List Op → Bool
  | _, [] => true
  | st, Op.alloc ptr usable frames junk :: rest =>
    decide (stackHash hashImpl st.track frames = h) &&
      match operatorNew hashImpl st ptr usable frames junk with
      | some r => touchesOnly hashImpl h r.1 rest
      | none => true
  | st, Op.dealloc ptr usable :: rest =>
    (match tfind ptr st.pointersTable with
      | some k => decide (k = h)
      | none => true) &&
    (match makeDelete st ptr usable with
      | some r => touchesOnly hashImpl h r.state rest
      | none => true)

/-- Every allocation of the sequence formats a text that fits the arrays. -/
def opsFit : List Op → Bool
  | [] => true
  | Op.alloc _ _ frames _ :: rest => stackFits frames && opsFit rest
  | Op.dealloc _ _ :: rest => opsFit rest

/-- The block `printTables` writes for one descriptor: the text stored by
`snprintf(track, kBufferSize, ...)`, passed to `printf` as its format. -/
def emittedBlock (item : AllocationDescription) : Option (List Char) :=
  printfFormat ((traceText item).take (kBufferSize - 1))

/-! ## A hook and `deinitTables` on two threads -/

/-- One call of a hook. -/
inductive Hook where
  | allocate (ptr usable : Nat) (frames : List (List Char)) (junk : List Char)
  | deallocate (ptr usable : Nat)
  | report
deriving DecidableEq, Repr

/-- The steps of two threads, one running a hook and one running `deinitTables`.
Every hook starts with `table_ready.load()`, made before the lock `tables_cs` is
taken (lines 87, 122, 160).  When the value loaded is true the hook takes the
lock and runs its block on the tables (lines 88-100, 125-146, 161-181); it does
not load the flag again.  `deinitTables` holds the lock from its first statement
to its last (lines 115-118), so all of it is one step. -/
inductive ThreadStep where
  | load
  | locked
  | teardown
deriving DecidableEq, Repr

/-- The two threads at a point of their run: the shared state, whether
`deinitTables` has run the destructors of the tables, the value the hook loaded
from `table_ready`, and whether the hook accessed a table after its destruction. -/
structure Threads where
  shared : State
  destroyed : Bool
  loaded : Bool
  usedDestroyed : Bool
deriving DecidableEq, Repr

/-- The block of a hook under the lock, run on tables that exist.  While the
tables exist the flag is true (it is set after their construction and cleared
before their destruction, under the lock), so the block is the hook itself run on
the shared state. -/
def lockedBlock (hashImpl : List Char → Nat) (st : State) : Hook → Option State
  | Hook.allocate ptr usable frames junk =>
    (operatorNew hashImpl st ptr usable frames junk).map Prod.fst
  | Hook.deallocate ptr usable => (makeDelete st ptr usable).map DeleteOutcome.state
  | Hook.report => some (printTables st).1

/-- One step of the two threads.  The block under the lock runs when the hook
loaded `true`, whatever the flag holds by then; its first statements call
`pointersTable().find`, `allocationsTable()[hash]` or `allocationsTable().size()`,
so on destroyed tables it accesses a destroyed table. -/
def threadStep (hashImpl : List Char → Nat) (hook : Hook) (t : Threads) :
    ThreadStep → Option Threads
  | ThreadStep.load => some { t with loaded := t.shared.table_ready }
  | ThreadStep.locked =>
    if t.loaded then
      if t.destroyed then some { t with usedDestroyed := true }
      else (lockedBlock hashImpl t.shared hook).map (fun s => { t with shared := s })
    else some t
  | ThreadStep.teardown =>
    some { t with shared := deinitTables t.shared, destroyed := true }

/-- Run the steps of the two threads in the given order. -/
def interleave (hashImpl : List Char → Nat) (hook : Hook) :
    Threads → List ThreadStep → Option Threads
  | t, [] => some t
  | t, s :: rest =>
    (threadStep hashImpl hook t s).bind (fun t1 => interleave hashImpl hook t1 rest)

/-- Both threads before their first step, on tables that exist. -/
def threadsStart (st : State) : Threads :=
  { shared := st, destroyed := false, loaded := false, usedDestroyed := false }

/-! ## Sample data -/

/-- A frame name of 3300 bytes. -/
def longName : List Char := List.replicate 3300 'a'

/-- Ten frames whose names have 3300 bytes each. -/
def longFrames : List (List Char) := List.replicate 10 longName


/-- A hash function used in the examples. -/
def sampleHash (text : List Char) : Nat :=
  text.foldl (fun acc c => (acc * 31 + c.toNat) % 65521) 7

/-- Frames of a call site `A`. -/
def siteA : List (List Char) := ["app(main+0x1f) [0x401136]".toList, "libc.so.6(+0x29d90)".toList]

/-- Frames of a call site `B`. -/
def siteB : List (List Char) := ["app(work+0x2a) [0x401200]".toList]

/-- The hash of the stack text of site `A`. -/
def hashA : Nat := sampleHash (stackText [] siteA)

/-- The bytes copied into the record of site `A`. -/
def stackA : List Char := stackText [] siteA ++ [NUL]

/-- The state after `A` allocated 24 bytes at 4096. -/
def oneLive : State :=
  { table_ready := true
    allocationsTable := [(hashA, { count := 1, alloc_size := 24, stack := stackA })]
    pointersTable := [(4096, hashA)]
    track := stackA }

/-- The state after `A` allocated 24 bytes at 4096 and 40 bytes at 8192. -/
def bothLive : State :=
  { table_ready := true
    allocationsTable := [(hashA, { count := 2, alloc_size := 64, stack := stackA })]
    pointersTable := [(8192, hashA), (4096, hashA)]
    track := stackA }

/-- The state after `A` allocated 24 bytes at 4096 and 40 bytes at 8192 and the
first block was freed. -/
def sampleLive : State :=
  { table_ready := true
    allocationsTable := [(hashA, { count := 1, alloc_size := 40, stack := stackA })]
    pointersTable := [(8192, hashA)]
    track := stackA }

/-- Three allocations of 100 bytes (usable size 104) at site `A`. -/
def threeAllocsA : List AllocCall :=
  [{ ptr := 4096, usable := 104, frames := siteA, junk := [] },
   { ptr := 8192, usable := 104, frames := siteA, junk := [] },
   { ptr := 12288, usable := 104, frames := siteA, junk := [] }]

/-- The hash of the stack text of site `B`. -/
def hashB : Nat := sampleHash (stackText [] siteB)

/-- The bytes copied into the record of site `B`. -/
def stackB : List Char := stackText [] siteB ++ [NUL]

/-- Site `A` holds the blocks 4096 and 12288, site `B` the block 8192. -/
def twoSites : State :=
  { table_ready := true
    allocationsTable :=
      [(hashB, { count := 1, alloc_size := 40, stack := stackB }),
       (hashA, { count := 2, alloc_size := 48, stack := stackA })]
    pointersTable := [(12288, hashA), (8192, hashB), (4096, hashA)]
    track := stackA }

/-- The state `twoSites` after both blocks of site `A` were freed. -/
def onlySiteB : State :=
  { table_ready := true
    allocationsTable := [(hashB, { count := 1, alloc_size := 40, stack := stackB })]
    pointersTable := [(8192, hashB)]
    track := stackA }

/-- The state after an allocation at site `A` whose `malloc` failed: the null
pointer is in the pointer table. -/
def nullTracked : State :=
  { table_ready := true
    allocationsTable := [(hashA, { count := 1, alloc_size := 0, stack := stackA })]
    pointersTable := [(0, hashA)]
    track := stackA }

/-- A ready state whose pointer table names a record that is not in the
allocation table. -/
def danglingState : State :=
  { table_ready := true
    allocationsTable := []
    pointersTable := [(4096, hashA)]
    track := [] }

/-- The state after an allocation for which `backtrace` captured no frame (the
formatted text is empty, the record is stored under the hash of the empty text
with an empty stack text). -/
def emptyOnly : State :=
  { table_ready := true
    allocationsTable := [(sampleHash [], { count := 1, alloc_size := 24, stack := [NUL] })]
    pointersTable := [(4096, sampleHash [])]
    track := [] }

/-- The state `emptyOnly` after one more allocation, at site `A`. -/
def emptyTextState : State :=
  { table_ready := true
    allocationsTable :=
      [(hashA, { count := 1, alloc_size := 40, stack := stackA }),
       (sampleHash [], { count := 1, alloc_size := 24, stack := [NUL] })]
    pointersTable := [(8192, hashA), (4096, sampleHash [])]
    track := stackA }

/-- A frame whose formatted line has the hash of the empty text under
`sampleHash`. -/
def collidingFrames : List (List Char) := ["dqbx".toList]

/-- The state `emptyOnly` after the address 8192 was allocated from
`collidingFrames` and freed again. -/
def emptyRewritten : State :=
  { table_ready := true
    allocationsTable :=
      [(sampleHash [], { count := 1, alloc_size := 24, stack := "dqbx\n".toList ++ [NUL] })]
    pointersTable := [(4096, sampleHash [])]
    track := "dqbx\n".toList ++ [NUL] }

/-! ## Invariants and reachable states -/

/-- Consistency of the two tables after at most `n` allocations: the keys are
unique, every pointer entry names a record, and every record counts at least the
pointer entries that name it. -/
structure Consistent (n : Nat) (st : State) : Prop where
  ready : st.table_ready = true
  ptrKeys : (tkeys st.pointersTable).Nodup
  recKeys : (tkeys st.allocationsTable).Nodup
  owner : ∀ p h, (p, h) ∈ st.pointersTable → h ∈ tkeys st.allocationsTable
  counts : ∀ h d, (h, d) ∈ st.allocationsTable →
    (liveAddrs st.pointersTable h).length ≤ d.count ∧ 1 ≤ d.count ∧ d.count ≤ n

/-- Exact accounting: `size p` is the usable size of the live address `p`. -/
structure Accounted (size : Nat → Nat) (st : State) : Prop where
  ready : st.table_ready = true
  ptrKeys : (tkeys st.pointersTable).Nodup
  recKeys : (tkeys st.allocationsTable).Nodup
  addrs : ∀ p, p ∈ tkeys st.pointersTable → 0 < p ∧ p < u64
  owner : ∀ p h, (p, h) ∈ st.pointersTable → h ∈ tkeys st.allocationsTable
  exact : ∀ h d, (h, d) ∈ st.allocationsTable →
    d.count = (liveAddrs st.pointersTable h).length ∧
    d.alloc_size = ((liveAddrs st.pointersTable h).map size).sum % u64 ∧
    1 ≤ d.count

/-- All live allocations belong to the call site with hash `h`: the pointer
table has unique keys and only the value `h`, and the allocation table is empty
when the pointer table is, and otherwise holds the single record of `h`, whose
count is the number of pointer entries. -/
structure OneSite (h : Nat) (st : State) : Prop where
  ready : st.table_ready = true
  ptrKeys : (tkeys st.pointersTable).Nodup
  values : ∀ p k, (p, k) ∈ st.pointersTable → k = h
  below : st.pointersTable.length < u64
  table : (st.pointersTable = [] ∧ st.allocationsTable = []) ∨
    (∃ d, st.allocationsTable = [(h, d)] ∧ d.count = st.pointersTable.length ∧
      st.pointersTable ≠ [])

/-- The outstanding bytes recorded for the hash `h` (zero without a record). -/
def siteBytes (st : State) (h : Nat) : Nat :=
  match tfind h st.allocationsTable with
  | some d => d.alloc_size
  | none => 0

/-- States reached from `initTables` by allocations of fresh non-null addresses
that `operator new` completes (`r` is its result) and by deallocations that
report, for a tracked address, the usable size reported when it was allocated.
The second index gives the usable size of every live address. -/
inductive Tracks (hashImpl : List Char → Nat) : State → (Nat → Nat) → Prop where
  | start (s0 : State) (size : Nat → Nat) : Tracks hashImpl (initTables s0) size
  | allocate {st : State} {size : Nat → Nat} (ptr usable : Nat)
      (frames : List (List Char)) (junk : List Char) (r : State × Nat)
      (hst : Tracks hashImpl st size)
      (hnull : ptr ≠ 0) (hword : ptr < u64)
      (hfresh : tfind ptr st.pointersTable = none)
      (hnew : operatorNew hashImpl st ptr usable frames junk = some r) :
      Tracks hashImpl r.1 (Function.update size ptr usable)
  | deallocate {st : State} {size : Nat → Nat} (ptr usable : Nat) (r : DeleteOutcome)
      (hst : Tracks hashImpl st size)
      (hsize : tfind ptr st.pointersTable ≠ none → usable = size ptr)
      (hdel : makeDelete st ptr usable = some r) :
      Tracks hashImpl r.state size

/-! # Theorems -/

/-! ## Facts about tables -/

section Tables

variable {V : Type}

theorem tfind_nil (k : Nat) : tfind k ([] : List (Nat × V)) = none := rfl

theorem tfind_cons (k : Nat) (e : Nat × V) (t : List (Nat × V)) :
    tfind k (e :: t) = if e.1 = k then some e.2 else tfind k t := by
  unfold tfind
  by_cases h : e.1 = k
  · simp [List.find?_cons, h]
  · simp [List.find?_cons, h]

theorem tfind_eq_none_iff (k : Nat) (t : List (Nat × V)) :
    tfind k t = none ↔ k ∉ tkeys t := by
  induction t with
  | nil => simp [tfind_nil, tkeys]
  | cons e t ih =>
    rw [tfind_cons]
    by_cases h : e.1 = k
    · simp [h, tkeys]
    · have h2 : ¬ k = e.1 := fun hh => h hh.symm
      simp only [h, if_false, ih, tkeys, List.map_cons, List.mem_cons, h2, false_or]

theorem tfind_isSome_iff (k : Nat) (t : List (Nat × V)) :
    (tfind k t).isSome = true ↔ k ∈ tkeys t := by
  rw [← not_iff_not, ← tfind_eq_none_iff]
  cases tfind k t <;> simp

theorem mem_of_tfind {k : Nat} {v : V} {t : List (Nat × V)}
    (h : tfind k t = some v) : (k, v) ∈ t := by
  induction t with
  | nil => simp [tfind_nil] at h
  | cons e t ih =>
    rw [tfind_cons] at h
    by_cases hk : e.1 = k
    · simp only [hk, if_true, Option.some.injEq] at h
      have : e = (k, v) := by cases e; simp_all
      simp [this]
    · simp only [hk, if_false] at h
      exact List.mem_cons_of_mem _ (ih h)

theorem mem_tkeys_of_mem {k : Nat} {v : V} {t : List (Nat × V)}
    (h : (k, v) ∈ t) : k ∈ tkeys t :=
  List.mem_map.mpr ⟨(k, v), h, rfl⟩

theorem tfind_of_mem {k : Nat} {v : V} {t : List (Nat × V)}
    (hnd : (tkeys t).Nodup) (h : (k, v) ∈ t) : tfind k t = some v := by
  induction t with
  | nil => simp at h
  | cons e t ih =>
    rw [tfind_cons]
    simp only [tkeys, List.map_cons, List.nodup_cons] at hnd
    rcases List.mem_cons.mp h with h1 | h1
    · simp [← h1]
    · have hk : k ∈ tkeys t := mem_tkeys_of_mem h1
      have hne : ¬ e.1 = k := fun hh => hnd.1 (hh ▸ hk)
      simp only [hne, if_false]
      exact ih hnd.2 h1

theorem mem_terase {k : Nat} {e : Nat × V} {t : List (Nat × V)} :
    e ∈ terase k t ↔ e ∈ t ∧ e.1 ≠ k := by
  simp [terase]

theorem terase_of_not_mem {k : Nat} {t : List (Nat × V)} (h : k ∉ tkeys t) :
    terase k t = t := by
  unfold terase
  rw [List.filter_eq_self]
  intro e he
  have : e.1 ≠ k := fun hh => h (hh ▸ List.mem_map.mpr ⟨e, he, rfl⟩)
  simpa using this

theorem tkeys_terase (k : Nat) (t : List (Nat × V)) :
    tkeys (terase k t) = (tkeys t).filter (fun x => x != k) := by
  simp [tkeys, terase, List.filter_map, Function.comp_def]

theorem nodup_tkeys_terase {k : Nat} {t : List (Nat × V)} (h : (tkeys t).Nodup) :
    (tkeys (terase k t)).Nodup := by
  rw [tkeys_terase]
  exact h.filter _

theorem not_mem_tkeys_terase (k : Nat) (t : List (Nat × V)) : k ∉ tkeys (terase k t) := by
  rw [tkeys_terase]
  simp

theorem tkeys_tmodify (k : Nat) (f : V → V) (t : List (Nat × V)) :
    tkeys (tmodify k f t) = tkeys t := by
  unfold tkeys tmodify
  rw [List.map_map]
  apply List.map_congr_left
  intro e _
  by_cases h : e.1 = k <;> simp [h]

theorem tmodify_of_not_mem {k : Nat} {f : V → V} {t : List (Nat × V)}
    (h : k ∉ tkeys t) : tmodify k f t = t := by
  unfold tmodify
  conv_rhs => rw [← List.map_id t]
  apply List.map_congr_left
  intro e he
  have : e.1 ≠ k := fun hh => h (hh ▸ List.mem_map.mpr ⟨e, he, rfl⟩)
  simp [this]

theorem mem_tmodify {k : Nat} {f : V → V} {t : List (Nat × V)} {q : Nat} {w : V} :
    (q, w) ∈ tmodify k f t ↔
      (q ≠ k ∧ (q, w) ∈ t) ∨ (q = k ∧ ∃ v, (k, v) ∈ t ∧ w = f v) := by
  unfold tmodify
  rw [List.mem_map]
  constructor
  · rintro ⟨e, he, heq⟩
    by_cases h : e.1 = k
    · simp only [h, if_true, Prod.mk.injEq] at heq
      refine Or.inr ⟨heq.1.symm, e.2, ?_, heq.2.symm⟩
      have : e = (k, e.2) := by cases e; simp_all
      rw [← this]; exact he
    · simp only [h, if_false] at heq
      subst heq
      exact Or.inl ⟨h, he⟩
  · rintro (⟨hq, hm⟩ | ⟨hq, v, hm, hw⟩)
    · exact ⟨(q, w), hm, by simp [hq]⟩
    · exact ⟨(k, v), hm, by simp [hq, hw]⟩

theorem tkeys_tindex (k : Nat) (dflt : V) (t : List (Nat × V)) :
    tkeys (tindex k dflt t) = if k ∈ tkeys t then tkeys t else k :: tkeys t := by
  unfold tindex
  by_cases h : k ∈ tkeys t
  · simp [h, (tfind_isSome_iff k t).mpr h]
  · have : (tfind k t).isSome = false := by
      rw [(tfind_eq_none_iff k t).mpr h]; rfl
    rw [if_neg (by simp [this]), if_neg h]
    rfl

theorem nodup_tkeys_tindex {k : Nat} {dflt : V} {t : List (Nat × V)}
    (h : (tkeys t).Nodup) : (tkeys (tindex k dflt t)).Nodup := by
  rw [tkeys_tindex]
  by_cases hk : k ∈ tkeys t
  · simpa [hk] using h
  · rw [if_neg hk]
    exact List.nodup_cons.mpr ⟨hk, h⟩

theorem mem_tkeys_tindex (k : Nat) (dflt : V) (t : List (Nat × V)) :
    k ∈ tkeys (tindex k dflt t) := by
  rw [tkeys_tindex]
  by_cases hk : k ∈ tkeys t <;> simp [hk]

/-- The entries of a table after `t[k]` was accessed and its value updated by `f`. -/
theorem mem_tmodify_tindex {k : Nat} {f : V → V} {dflt : V} {t : List (Nat × V)}
    {q : Nat} {w : V} :
    (q, w) ∈ tmodify k f (tindex k dflt t) ↔
      (q ≠ k ∧ (q, w) ∈ t) ∨
      (q = k ∧ ((∃ v, (k, v) ∈ t ∧ w = f v) ∨ (k ∉ tkeys t ∧ w = f dflt))) := by
  rw [mem_tmodify]
  unfold tindex
  by_cases hk : k ∈ tkeys t
  · have h1 : (tfind k t).isSome = true := (tfind_isSome_iff k t).mpr hk
    simp [h1, hk]
  · have h1 : (tfind k t).isSome = false := by
      rw [(tfind_eq_none_iff k t).mpr hk]; rfl
    have h2 : ∀ v, (k, v) ∉ t := fun v hv => hk (mem_tkeys_of_mem hv)
    rw [if_neg (by simp [h1])]
    constructor
    · rintro (⟨hq, h3⟩ | ⟨hq, v, h3, hw⟩)
      · rcases List.mem_cons.mp h3 with h4 | h4
        · exact absurd (Prod.mk.inj h4).1 hq
        · exact Or.inl ⟨hq, h4⟩
      · rcases List.mem_cons.mp h3 with h4 | h4
        · exact Or.inr ⟨hq, Or.inr ⟨hk, by rw [hw, (Prod.mk.inj h4).2]⟩⟩
        · exact absurd h4 (h2 v)
    · rintro (⟨hq, h3⟩ | ⟨hq, ⟨v, h3, _⟩ | ⟨_, hw⟩⟩)
      · exact Or.inl ⟨hq, List.mem_cons_of_mem _ h3⟩
      · exact absurd h3 (h2 v)
      · exact Or.inr ⟨hq, dflt, List.mem_cons_self _ _, hw⟩

end Tables

/-! ## Facts about `liveAddrs` -/

theorem liveAddrs_cons (e : Nat × Nat) (t : List (Nat × Nat)) (h : Nat) :
    liveAddrs (e :: t) h = if e.2 = h then e.1 :: liveAddrs t h else liveAddrs t h := by
  unfold liveAddrs
  by_cases hh : e.2 = h <;> simp [List.filter_cons, hh]

theorem mem_liveAddrs {p h : Nat} {t : List (Nat × Nat)} :
    p ∈ liveAddrs t h ↔ (p, h) ∈ t := by
  unfold liveAddrs
  simp only [List.mem_map, List.mem_filter, beq_iff_eq]
  constructor
  · rintro ⟨e, ⟨he, h2⟩, h1⟩
    have : e = (p, h) := by cases e; simp_all
    rw [← this]; exact he
  · intro hm
    exact ⟨(p, h), ⟨hm, rfl⟩, rfl⟩

theorem liveAddrs_sublist (t : List (Nat × Nat)) (h : Nat) :
    (liveAddrs t h).Sublist (tkeys t) :=
  (List.filter_sublist t).map Prod.fst

theorem liveAddrs_eq_nil {t : List (Nat × Nat)} {h : Nat}
    (hno : ∀ p, (p, h) ∉ t) : liveAddrs t h = [] := by
  apply List.eq_nil_iff_forall_not_mem.mpr
  intro p hp
  exact hno p (mem_liveAddrs.mp hp)

/-- Erasing the entry of `p`, whose value is `h0`, removes exactly `p` from the
addresses of `h0` and nothing from the addresses of another hash. -/
theorem liveAddrs_terase {t : List (Nat × Nat)} {p h0 : Nat}
    (hnd : (tkeys t).Nodup) (hf : tfind p t = some h0) (h : Nat) :
    (if h0 = h then (liveAddrs t h).Perm (p :: liveAddrs (terase p t) h)
      else liveAddrs (terase p t) h = liveAddrs t h) := by
  induction t with
  | nil => simp [tfind_nil] at hf
  | cons e t ih =>
    rw [tfind_cons] at hf
    have hnd2 : e.1 ∉ tkeys t ∧ (tkeys t).Nodup := by
      simpa [tkeys, List.nodup_cons] using hnd
    by_cases hk : e.1 = p
    · simp only [hk, if_true, Option.some.injEq] at hf
      have hp : p ∉ tkeys t := hk ▸ hnd2.1
      have her : terase p (e :: t) = t := by
        have h1 : terase p (e :: t) = terase p t := by
          simp [terase, List.filter_cons, hk]
        rw [h1, terase_of_not_mem hp]
      rw [her, liveAddrs_cons, hf, hk]
      by_cases hh : h0 = h
      · simp [hh]
      · simp [hh]
    · simp only [hk, if_false] at hf
      have her : terase p (e :: t) = e :: terase p t := by
        simp [terase, List.filter_cons, hk]
      have ih2 := ih hnd2.2 hf
      rw [her, liveAddrs_cons, liveAddrs_cons]
      by_cases hh : h0 = h
      · simp only [hh, if_true] at ih2 ⊢
        by_cases he : e.2 = h
        · simp only [he, if_true]
          exact (List.Perm.cons e.1 ih2).trans (List.Perm.swap _ _ _)
        · simpa [he] using ih2
      · simp only [hh, if_false] at ih2 ⊢
        rw [ih2]

theorem length_liveAddrs_terase {t : List (Nat × Nat)} {p h0 : Nat}
    (hnd : (tkeys t).Nodup) (hf : tfind p t = some h0) (h : Nat) :
    (liveAddrs (terase p t) h).length + (if h0 = h then 1 else 0)
      = (liveAddrs t h).length := by
  have := liveAddrs_terase hnd hf h
  by_cases hh : h0 = h
  · simp only [hh, if_true] at this ⊢
    rw [this.length_eq]; simp
  · simp only [hh, if_false] at this ⊢
    rw [this]; simp

/-- The entries of the pointer table after `pointersTable()[p] = h`. -/
theorem mem_assign {t : List (Nat × Nat)} {p h q v : Nat} :
    (q, v) ∈ tmodify p (fun _ => h) (tindex p 0 t) ↔
      (q ≠ p ∧ (q, v) ∈ t) ∨ (q = p ∧ v = h) := by
  rw [mem_tmodify_tindex]
  constructor
  · rintro (h1 | ⟨hq, ⟨_, _, hv⟩ | ⟨_, hv⟩⟩)
    · exact Or.inl h1
    · exact Or.inr ⟨hq, hv⟩
    · exact Or.inr ⟨hq, hv⟩
  · rintro (h1 | ⟨hq, hv⟩)
    · exact Or.inl h1
    · refine Or.inr ⟨hq, ?_⟩
      by_cases hk : p ∈ tkeys t
      · obtain ⟨e, he, hep⟩ := List.mem_map.mp hk
        refine Or.inl ⟨e.2, ?_, hv⟩
        have : e = (p, e.2) := by cases e; simp_all
        rw [← this]; exact he
      · exact Or.inr ⟨hk, hv⟩

theorem assign_fresh {t : List (Nat × Nat)} {p h : Nat} (hf : tfind p t = none) :
    tmodify p (fun _ => h) (tindex p 0 t) = (p, h) :: t := by
  have hk : p ∉ tkeys t := (tfind_eq_none_iff p t).mp hf
  have h1 : tindex p 0 t = (p, 0) :: t := by
    unfold tindex; rw [hf]; rfl
  rw [h1]
  have h2 : tmodify p (fun _ => h) ((p, 0) :: t) = (p, h) :: tmodify p (fun _ => h) t := by
    simp [tmodify]
  rw [h2, tmodify_of_not_mem hk]

theorem length_liveAddrs_tmodify_le {t : List (Nat × Nat)} (p h k : Nat)
    (hnd : (tkeys t).Nodup) :
    (liveAddrs (tmodify p (fun _ => h) t) k).length
      ≤ (liveAddrs t k).length + (if k = h then 1 else 0) := by
  induction t with
  | nil => simp [tmodify, liveAddrs]
  | cons e t ih =>
    have hnd2 : e.1 ∉ tkeys t ∧ (tkeys t).Nodup := by
      simpa [tkeys, List.nodup_cons] using hnd
    by_cases hk : e.1 = p
    · have hp : p ∉ tkeys t := hk ▸ hnd2.1
      have h2 : tmodify p (fun _ => h) (e :: t) = (e.1, h) :: t := by
        have : tmodify p (fun _ => h) (e :: t)
            = (e.1, h) :: tmodify p (fun _ => h) t := by
          simp [tmodify, hk]
        rw [this, tmodify_of_not_mem hp]
      rw [h2, liveAddrs_cons, liveAddrs_cons]
      by_cases h3 : h = k
      · by_cases h4 : e.2 = k <;> simp [h3, h4]
      · have h3b : ¬ k = h := fun hh => h3 hh.symm
        by_cases h4 : e.2 = k <;> simp [h3, h3b, h4]
    · have h2 : tmodify p (fun _ => h) (e :: t) = e :: tmodify p (fun _ => h) t := by
        simp [tmodify, hk]
      have ih2 := ih hnd2.2
      rw [h2, liveAddrs_cons, liveAddrs_cons]
      by_cases h4 : e.2 = k
      · simp only [h4, if_true, List.length_cons]
        omega
      · simpa [h4] using ih2

theorem length_liveAddrs_assign_le {t : List (Nat × Nat)} (p h k : Nat)
    (hnd : (tkeys t).Nodup) :
    (liveAddrs (tmodify p (fun _ => h) (tindex p 0 t)) k).length
      ≤ (liveAddrs t k).length + (if k = h then 1 else 0) := by
  cases hf : tfind p t with
  | none =>
    rw [assign_fresh hf, liveAddrs_cons]
    by_cases h3 : h = k
    · simp [h3]
    · have h3b : ¬ k = h := fun hh => h3 hh.symm
      simp [h3, h3b]
  | some v =>
    have : tindex p 0 t = t := by
      unfold tindex; rw [hf]; rfl
    rw [this]
    exact length_liveAddrs_tmodify_le p h k hnd

/-- A duplicate-free list of non-null 64-bit addresses has fewer than `2 ^ 64`
elements. -/
theorem length_lt_u64 {l : List Nat} (hnd : l.Nodup)
    (hb : ∀ p, p ∈ l → 0 < p ∧ p < u64) : l.length < u64 := by
  have hsub : l.toFinset ⊆ Finset.Ico 1 u64 := by
    intro x hx
    have := hb x (List.mem_toFinset.mp hx)
    exact Finset.mem_Ico.mpr ⟨this.1, this.2⟩
  have hcard := Finset.card_le_card hsub
  rw [List.toFinset_card_of_nodup hnd, Nat.card_Ico] at hcard
  have : 0 < u64 := by unfold u64; positivity
  omega

/-! ## Bounds of the stack text -/

theorem length_bufWrite (buf : List Char) (off : Nat) (data : List Char) :
    (bufWrite buf off data).length = max (off + data.length) buf.length := by
  unfold bufWrite
  rw [List.length_append, List.length_append, List.length_take, List.length_append,
    List.length_replicate, List.length_drop]
  omega

theorem length_snprintf (buf : List Char) (off limit : Nat) (text : List Char) :
    (snprintf buf off limit text).1.length = max (snprintfEnd off limit text) buf.length :=
  length_bufWrite _ _ _

theorem length_bufRead (buf : List Char) (off n : Nat) : (bufRead buf off n).length = n := by
  unfold bufRead
  rw [List.length_map, List.length_range]

theorem formatTrack_cons (track : List Char) (pos : Nat) (name : List Char)
    (rest : List (List Char)) :
    formatTrack track pos (name :: rest)
      = formatTrack (snprintf track pos kBufferSize (cstr name ++ ['\n'])).1
          (pos + (cstr name ++ ['\n']).length) rest := rfl

theorem formatTrack_snd (names : List (List Char)) :
    ∀ (track : List Char) (pos : Nat),
      (formatTrack track pos names).2
        = pos + (names.map (fun n => (cstr n ++ ['\n']).length)).sum := by
  induction names with
  | nil => intro track pos; rfl
  | cons name rest ih =>
    intro track pos
    rw [formatTrack_cons, ih, List.map_cons, List.sum_cons, Nat.add_assoc]

theorem length_formatTrack_mono (names : List (List Char)) :
    ∀ (track : List Char) (pos : Nat),
      track.length ≤ (formatTrack track pos names).1.length := by
  induction names with
  | nil => intro track pos; exact Nat.le_refl _
  | cons name rest ih =>
    intro track pos
    rw [formatTrack_cons]
    refine Nat.le_trans ?_ (ih _ _)
    rw [length_snprintf]
    exact Nat.le_max_right _ _

/-- Every write of the loop lies inside the list `formatTrack` leaves: on a plain
list a write past the capacity makes the list longer. -/
theorem writeEnd_le_length (names : List (List Char)) :
    ∀ (track : List Char) (pos e : Nat), e ∈ trackWriteEnds pos names →
      e ≤ (formatTrack track pos names).1.length := by
  induction names with
  | nil => intro track pos e he; simp [trackWriteEnds] at he
  | cons name rest ih =>
    intro track pos e he
    rw [formatTrack_cons]
    rcases List.mem_cons.mp he with h1 | h1
    · refine Nat.le_trans ?_ (length_formatTrack_mono rest _ _)
      rw [length_snprintf, h1]
      exact Nat.le_max_left _ _
    · exact ih _ _ e h1

theorem mem_trackWriteEnds_replicate (name : List Char) (k : Nat) :
    ∀ pos : Nat,
      snprintfEnd (pos + k * (cstr name ++ ['\n']).length) kBufferSize (cstr name ++ ['\n'])
        ∈ trackWriteEnds pos (List.replicate (k + 1) name) := by
  induction k with
  | zero =>
    intro pos
    rw [Nat.zero_mul, Nat.add_zero]
    exact List.mem_cons_self _ _
  | succ k ih =>
    intro pos
    have h := ih (pos + (cstr name ++ ['\n']).length)
    have e : pos + (cstr name ++ ['\n']).length + k * (cstr name ++ ['\n']).length
        = pos + (k + 1) * (cstr name ++ ['\n']).length := by
      rw [Nat.add_assoc, Nat.succ_mul, Nat.add_comm (k * _)]
    rw [e] at h
    exact List.mem_cons_of_mem _ h

theorem writeEnd_le_total (names : List (List Char)) :
    ∀ (pos e : Nat), e ∈ trackWriteEnds pos names →
      e ≤ pos + (names.map (fun n => (cstr n ++ ['\n']).length)).sum + 1 := by
  induction names with
  | nil => intro pos e he; simp [trackWriteEnds] at he
  | cons name rest ih =>
    intro pos e he
    rw [List.map_cons, List.sum_cons]
    rcases List.mem_cons.mp he with h1 | h1
    · rw [h1]
      unfold snprintfEnd
      rw [List.length_append, List.length_take, List.length_singleton]
      omega
    · have := ih _ e h1
      omega

/-- When the formatted lines have fewer than `kBufferSize` bytes in total, every
write of the loop ends inside the `kBufferSize + 1` bytes of `track`, the final
`pos` is below `kBufferSize`, and the `pos + 1` bytes copied fit in `stack`. -/
theorem track_writes_fit (names : List (List Char))
    (hfit : (names.map (fun n => (cstr n ++ ['\n']).length)).sum < kBufferSize) :
    (∀ e, e ∈ trackWriteEnds 0 names → e ≤ kBufferSize + 1) ∧
    (formatTrack [] 0 names).2 < kBufferSize ∧
    (formatTrack [] 0 names).2 + 1 ≤ kBufferSize := by
  have hpos := formatTrack_snd names [] 0
  refine ⟨fun e he => ?_, by omega, by omega⟩
  have := writeEnd_le_total names 0 e he
  omega

/-! ## The capacity of the arrays -/

theorem formatTrack_pos (track : List Char) (frames : List (List Char)) :
    (formatTrack track 0 (frames.take kStackSize)).2 = textLength frames := by
  rw [formatTrack_snd, Nat.zero_add]
  rfl

theorem length_stackText (track : List Char) (frames : List (List Char)) :
    (stackText track frames).length = textLength frames := by
  unfold stackText
  dsimp only
  rw [length_bufRead, formatTrack_pos]

theorem stackFits_iff (frames : List (List Char)) :
    stackFits frames = true ↔ textLength frames < kBufferSize := by
  unfold stackFits
  exact decide_eq_true_iff

/-- When the formatted text fits, every access of `operator new` is inside the
arrays. -/
theorem inBounds_of_fits (hashImpl : List Char → Nat) (st : State)
    (frames : List (List Char)) (hfit : stackFits frames = true) :
    inBounds hashImpl st frames = true := by
  have hlt : textLength frames < kBufferSize := (stackFits_iff frames).mp hfit
  have hpos := formatTrack_pos st.track frames
  have h1 : (trackWriteEnds 0 (frames.take kStackSize)).all
      (fun e => decide (e ≤ kBufferSize + 1)) = true := by
    rw [List.all_eq_true]
    intro e he
    have := writeEnd_le_total (frames.take kStackSize) 0 e he
    have h2 : ((frames.take kStackSize).map (fun n => (cstr n ++ ['\n']).length)).sum
        = textLength frames := rfl
    rw [h2] at this
    exact decide_eq_true (by omega)
  have h2 : decide ((formatTrack st.track 0 (frames.take kStackSize)).2 ≤ kBufferSize + 1)
      = true := decide_eq_true (by omega)
  have h3 : decide ((formatTrack st.track 0 (frames.take kStackSize)).2 + 1 ≤ kBufferSize)
      = true := decide_eq_true (by omega)
  unfold inBounds
  dsimp only
  rw [h1, h2, h3]
  rfl

theorem operatorNew_some {hashImpl : List Char → Nat} {st : State} {ptr usable : Nat}
    {frames : List (List Char)} {junk : List Char} {r : State × Nat}
    (h : operatorNew hashImpl st ptr usable frames junk = some r) :
    r = operatorNewBody hashImpl st ptr usable frames junk := by
  unfold operatorNew at h
  split at h
  · exact absurd h (by simp)
  · exact (Option.some.inj h).symm

theorem operatorNew_of_inBounds (hashImpl : List Char → Nat) (st : State) (ptr usable : Nat)
    (frames : List (List Char)) (junk : List Char)
    (h : inBounds hashImpl st frames = true) :
    operatorNew hashImpl st ptr usable frames junk
      = some (operatorNewBody hashImpl st ptr usable frames junk) := by
  unfold operatorNew
  rw [if_neg]
  rintro ⟨_, h2⟩
  rw [h] at h2
  exact absurd h2 (by decide)

theorem operatorNew_of_fits (hashImpl : List Char → Nat) (st : State) (ptr usable : Nat)
    (frames : List (List Char)) (junk : List Char) (hfit : stackFits frames = true) :
    operatorNew hashImpl st ptr usable frames junk
      = some (operatorNewBody hashImpl st ptr usable frames junk) :=
  operatorNew_of_inBounds hashImpl st ptr usable frames junk
    (inBounds_of_fits hashImpl st frames hfit)

theorem operatorNew_eq_none (hashImpl : List Char → Nat) (st : State) (ptr usable : Nat)
    (frames : List (List Char)) (junk : List Char) (hr : st.table_ready = true)
    (h : inBounds hashImpl st frames = false) :
    operatorNew hashImpl st ptr usable frames junk = none := by
  unfold operatorNew
  rw [if_pos ⟨hr, h⟩]

/-- A new record is created only when the formatted text fits. -/
theorem fits_of_new_record {hashImpl : List Char → Nat} {st : State} {ptr usable : Nat}
    {frames : List (List Char)} {junk : List Char} {r : State × Nat}
    (hr : st.table_ready = true)
    (hrec : tfind (stackHash hashImpl st.track frames) st.allocationsTable = none)
    (h : operatorNew hashImpl st ptr usable frames junk = some r) :
    stackFits frames = true := by
  have hin : inBounds hashImpl st frames = true := by
    cases hb : inBounds hashImpl st frames with
    | true => rfl
    | false =>
      rw [operatorNew_eq_none hashImpl st ptr usable frames junk hr hb] at h
      exact absurd h (by simp)
  have hrec2 : tfind (hashImpl (bufRead (formatTrack st.track 0 (frames.take kStackSize)).1 0
      (formatTrack st.track 0 (frames.take kStackSize)).2)) st.allocationsTable = none := hrec
  unfold inBounds at hin
  dsimp only at hin
  rw [hrec2] at hin
  simp only [Bool.or_false, Bool.and_eq_true, decide_eq_true_eq] at hin
  rw [stackFits_iff, ← formatTrack_pos st.track frames]
  omega

/-! ## The hooks in a ready state -/

theorem operatorNewBody_ready (hashImpl : List Char → Nat) (st : State) (ptr usable : Nat)
    (frames : List (List Char)) (junk : List Char) (hr : st.table_ready = true) :
    (operatorNewBody hashImpl st ptr usable frames junk).1 =
      { table_ready := true
        allocationsTable :=
          tmodify (stackHash hashImpl st.track frames)
            (recordAllocation (formatTrack st.track 0 (frames.take kStackSize)).1
              (formatTrack st.track 0 (frames.take kStackSize)).2 usable)
            (tindex (stackHash hashImpl st.track frames) (AllocationDescription.init junk)
              st.allocationsTable)
        pointersTable :=
          tmodify ptr (fun _ => stackHash hashImpl st.track frames)
            (tindex ptr 0 st.pointersTable)
        track := (formatTrack st.track 0 (frames.take kStackSize)).1 } := by
  simp [operatorNewBody, hr, stackHash, stackText]

theorem operatorNewBody_not_ready (hashImpl : List Char → Nat) (st : State) (ptr usable : Nat)
    (frames : List (List Char)) (junk : List Char) (hr : st.table_ready = false) :
    operatorNewBody hashImpl st ptr usable frames junk = (st, ptr) := by
  simp [operatorNewBody, hr]

theorem operatorNew_not_ready (hashImpl : List Char → Nat) (st : State) (ptr usable : Nat)
    (frames : List (List Char)) (junk : List Char) (hr : st.table_ready = false) :
    operatorNew hashImpl st ptr usable frames junk = some (st, ptr) := by
  unfold operatorNew
  rw [if_neg (by rw [hr]; simp), operatorNewBody_not_ready hashImpl st ptr usable frames junk hr]

theorem makeDelete_not_ready (st : State) (ptr usable : Nat)
    (hr : st.table_ready = false) :
    makeDelete st ptr usable = some { state := st, reachedAssert := false, freed := [ptr] } := by
  simp [makeDelete, hr]

theorem makeDelete_untracked (st : State) (ptr usable : Nat)
    (hf : tfind ptr st.pointersTable = none) :
    makeDelete st ptr usable = some { state := st, reachedAssert := false, freed := [ptr] } := by
  unfold makeDelete
  rw [hf]
  simp

theorem makeDelete_tracked (st : State) (ptr usable hash : Nat)
    (entry : AllocationDescription) (hr : st.table_ready = true)
    (hf : tfind ptr st.pointersTable = some hash)
    (hrec : tfind hash st.allocationsTable = some entry) :
    makeDelete st ptr usable = some
      { state :=
          { st with
            pointersTable := terase ptr st.pointersTable
            allocationsTable :=
              if (recordDeallocation usable entry).count = 0
              then terase hash (tmodify hash (recordDeallocation usable) st.allocationsTable)
              else tmodify hash (recordDeallocation usable) st.allocationsTable }
        reachedAssert := true
        freed := [ptr] } := by
  unfold makeDelete
  rw [hf]
  simp only [hr, if_true]
  rw [hrec]

theorem makeDelete_missing_record (st : State) (ptr usable hash : Nat)
    (hr : st.table_ready = true)
    (hf : tfind ptr st.pointersTable = some hash)
    (hrec : tfind hash st.allocationsTable = none) :
    makeDelete st ptr usable = none := by
  unfold makeDelete
  rw [hf]
  simp only [hr, if_true]
  rw [hrec]

theorem recordDeallocation_count (usable : Nat) (entry : AllocationDescription)
    (h1 : 1 ≤ entry.count) (h2 : entry.count < u64) :
    (recordDeallocation usable entry).count = entry.count - 1 := by
  have hpos : 0 < u64 := by unfold u64; positivity
  show (u64 - 1 + entry.count) % u64 = entry.count - 1
  have : u64 - 1 + entry.count = (entry.count - 1) + u64 := by omega
  rw [this, Nat.add_mod_right, Nat.mod_eq_of_lt (by omega)]

theorem recordAllocation_count (track : List Char) (pos usable : Nat)
    (entry : AllocationDescription) (h : entry.count + 1 < u64) :
    (recordAllocation track pos usable entry).count = entry.count + 1 :=
  Nat.mod_eq_of_lt h

/-! ## Preservation of `Consistent` -/

theorem Consistent.mono {n m : Nat} {st : State} (h : Consistent n st) (hnm : n ≤ m) :
    Consistent m st :=
  { ready := h.ready, ptrKeys := h.ptrKeys, recKeys := h.recKeys, owner := h.owner
    counts := fun k d hd =>
      ⟨(h.counts k d hd).1, (h.counts k d hd).2.1, le_trans (h.counts k d hd).2.2 hnm⟩ }

theorem consistent_init (s0 : State) : Consistent 0 (initTables s0) :=
  { ready := rfl
    ptrKeys := List.nodup_nil
    recKeys := List.nodup_nil
    owner := fun p h hm => by simp [initTables] at hm
    counts := fun h d hm => by simp [initTables] at hm }

theorem consistent_alloc (hashImpl : List Char → Nat) {n : Nat} {st : State}
    (ptr usable : Nat) (frames : List (List Char)) (junk : List Char)
    (h : Consistent n st) (hn : n + 1 < u64) :
    Consistent (n + 1) (operatorNewBody hashImpl st ptr usable frames junk).1 := by
  rw [operatorNewBody_ready hashImpl st ptr usable frames junk h.ready]
  refine { ready := rfl, ptrKeys := ?_, recKeys := ?_, owner := ?_, counts := ?_ }
  · dsimp only
    rw [tkeys_tmodify]
    exact nodup_tkeys_tindex h.ptrKeys
  · dsimp only
    rw [tkeys_tmodify]
    exact nodup_tkeys_tindex h.recKeys
  · intro q k hm
    dsimp only at hm ⊢
    rw [tkeys_tmodify]
    rcases mem_assign.mp hm with ⟨_, hq⟩ | ⟨_, hk⟩
    · have := h.owner q k hq
      rw [tkeys_tindex]
      split
      · exact this
      · exact List.mem_cons_of_mem _ this
    · rw [hk]
      exact mem_tkeys_tindex _ _ _
  · intro k d hm
    have hlive := length_liveAddrs_assign_le (t := st.pointersTable) ptr
      (stackHash hashImpl st.track frames) k h.ptrKeys
    dsimp only at hm ⊢
    rcases mem_tmodify_tindex.mp hm with ⟨hk, hd⟩ | ⟨hk, ⟨v, hv, hd⟩ | ⟨hno, hd⟩⟩
    · have := h.counts k d hd
      simp only [hk, if_false] at hlive
      omega
    · subst hk
      have := h.counts _ v hv
      have hc : d.count = v.count + 1 := by
        rw [hd]; exact recordAllocation_count _ _ _ _ (by omega)
      simp only [if_true] at hlive
      omega
    · subst hk
      have hc : d.count = 1 := by
        rw [hd]
        have : (0 : Nat) + 1 < u64 := by omega
        exact recordAllocation_count _ _ _ (AllocationDescription.init junk) this
      have hz : liveAddrs st.pointersTable (stackHash hashImpl st.track frames) = [] := by
        apply liveAddrs_eq_nil
        intro q hq
        exact hno (h.owner q _ hq)
      simp only [if_true] at hlive
      rw [hz] at hlive
      simp only [List.length_nil] at hlive
      omega

theorem consistent_dealloc {n : Nat} {st : State} (ptr usable : Nat)
    (h : Consistent n st) (hn : n < u64) :
    ∃ r, makeDelete st ptr usable = some r ∧ Consistent n r.state := by
  cases hf : tfind ptr st.pointersTable with
  | none => exact ⟨_, makeDelete_untracked st ptr usable hf, h⟩
  | some hash =>
    have hkey : hash ∈ tkeys st.allocationsTable := h.owner ptr hash (mem_of_tfind hf)
    cases hrec : tfind hash st.allocationsTable with
    | none => exact absurd hkey ((tfind_eq_none_iff _ _).mp hrec)
    | some entry =>
      have hent := h.counts hash entry (mem_of_tfind hrec)
      have hcnt : (recordDeallocation usable entry).count = entry.count - 1 :=
        recordDeallocation_count usable entry hent.2.1 (by omega)
      have hlen := fun k => length_liveAddrs_terase h.ptrKeys hf k
      have hupd : ∀ k d, (k, d) ∈ tmodify hash (recordDeallocation usable) st.allocationsTable →
          (liveAddrs (terase ptr st.pointersTable) k).length ≤ d.count ∧ d.count ≤ n ∧
            (d.count = 0 → k = hash ∧ entry.count = 1) := by
        intro k d hm
        rcases mem_tmodify.mp hm with ⟨hk, hd⟩ | ⟨hk, v, hv, hd⟩
        · have := h.counts k d hd
          have hl := hlen k
          have hk2 : ¬ hash = k := fun hh => hk hh.symm
          simp only [hk2, if_false] at hl
          omega
        · subst hk
          have hve : v = entry := by
            have := tfind_of_mem h.recKeys hv
            rw [hrec] at this
            exact (Option.some.inj this).symm
          have hl := hlen k
          simp only [if_true] at hl
          have hdc : d.count = entry.count - 1 := by rw [hd, hve, hcnt]
          omega
      refine ⟨_, makeDelete_tracked st ptr usable hash entry h.ready hf hrec, ?_⟩
      refine { ready := h.ready, ptrKeys := nodup_tkeys_terase h.ptrKeys,
               recKeys := ?_, owner := ?_, counts := ?_ }
      · dsimp only
        split
        · apply nodup_tkeys_terase
          rw [tkeys_tmodify]; exact h.recKeys
        · rw [tkeys_tmodify]; exact h.recKeys
      · intro q k hm
        dsimp only at hm ⊢
        have hq := mem_terase.mp hm
        have hold := h.owner q k hq.1
        split
        · rename_i hzero
          rw [tkeys_terase, tkeys_tmodify]
          refine List.mem_filter.mpr ⟨hold, ?_⟩
          have hk : k ≠ hash := by
            intro hk
            have h1 : q ∈ liveAddrs (terase ptr st.pointersTable) hash :=
              mem_liveAddrs.mpr (hk ▸ hm)
            have h2 := hlen hash
            simp only [if_true] at h2
            have h3 : 0 < (liveAddrs (terase ptr st.pointersTable) hash).length :=
              List.length_pos_of_mem h1
            rw [hcnt] at hzero
            omega
          simpa using hk
        · rw [tkeys_tmodify]; exact hold
      · intro k d hm
        dsimp only at hm ⊢
        have hm2 : (k, d) ∈ tmodify hash (recordDeallocation usable) st.allocationsTable
            ∧ ((recordDeallocation usable entry).count = 0 → k ≠ hash) := by
          split at hm
          · exact ⟨(mem_terase.mp hm).1, fun _ => (mem_terase.mp hm).2⟩
          · rename_i hzero
            exact ⟨hm, fun hz => absurd hz hzero⟩
        have := hupd k d hm2.1
        refine ⟨this.1, ?_, this.2.1⟩
        by_contra hlt
        have hz : d.count = 0 := by omega
        have hk := this.2.2 hz
        exact hm2.2 (by rw [hcnt]; omega) hk.1

theorem run_alloc_some {hashImpl : List Char → Nat} {st st1 : State} {ptr usable : Nat}
    {frames : List (List Char)} {junk : List Char} {rest : List Op}
    (hrun : run hashImpl st (Op.alloc ptr usable frames junk :: rest) = some st1) :
    operatorNew hashImpl st ptr usable frames junk
        = some (operatorNewBody hashImpl st ptr usable frames junk) ∧
      run hashImpl (operatorNewBody hashImpl st ptr usable frames junk).1 rest = some st1 := by
  cases hnew : operatorNew hashImpl st ptr usable frames junk with
  | none => simp [run, step, hnew] at hrun
  | some r =>
    have hr := operatorNew_some hnew
    subst hr
    refine ⟨rfl, ?_⟩
    simpa [run, step, hnew] using hrun

theorem run_alloc_of_fits (hashImpl : List Char → Nat) (st : State) (ptr usable : Nat)
    (frames : List (List Char)) (junk : List Char) (rest : List Op)
    (hfit : stackFits frames = true) :
    run hashImpl st (Op.alloc ptr usable frames junk :: rest)
      = run hashImpl (operatorNewBody hashImpl st ptr usable frames junk).1 rest := by
  simp [run, step, operatorNew_of_fits hashImpl st ptr usable frames junk hfit]

theorem consistent_run (hashImpl : List Char → Nat) (ops : List Op) :
    ∀ (n : Nat) (st : State), Consistent n st → n + ops.length < u64 →
      opsFit ops = true →
      ∃ st1, run hashImpl st ops = some st1 ∧ Consistent (n + ops.length) st1 := by
  induction ops with
  | nil => intro n st h _ _; exact ⟨st, rfl, h⟩
  | cons op rest ih =>
    intro n st h hn hfit
    simp only [List.length_cons] at hn ⊢
    cases op with
    | alloc ptr usable frames junk =>
      simp only [opsFit, Bool.and_eq_true] at hfit
      have h1 := consistent_alloc hashImpl ptr usable frames junk h (by omega)
      obtain ⟨st1, hrun, hc⟩ := ih (n + 1) _ h1 (by omega) hfit.2
      refine ⟨st1, ?_, ?_⟩
      · rw [run_alloc_of_fits hashImpl st ptr usable frames junk rest hfit.1]
        exact hrun
      · have : n + (rest.length + 1) = n + 1 + rest.length := by omega
        rw [this]; exact hc
    | dealloc ptr usable =>
      have hfit2 : opsFit rest = true := hfit
      obtain ⟨r, hdel, h1⟩ := consistent_dealloc ptr usable h (by omega)
      obtain ⟨st1, hrun, hc⟩ := ih n _ h1 (by omega) hfit2
      refine ⟨st1, ?_, hc.mono (by omega)⟩
      simp [run, step, hdel, hrun]

theorem consistent_of_run (hashImpl : List Char → Nat) (ops : List Op) :
    ∀ (n : Nat) (st st1 : State), Consistent n st → n + ops.length < u64 →
      run hashImpl st ops = some st1 → Consistent (n + ops.length) st1 := by
  induction ops with
  | nil =>
    intro n st st1 h _ hrun
    rw [← Option.some.inj hrun]; exact h
  | cons op rest ih =>
    intro n st st1 h hn hrun
    simp only [List.length_cons] at hn ⊢
    cases op with
    | alloc ptr usable frames junk =>
      have hrun2 := (run_alloc_some hrun).2
      have h1 := consistent_alloc hashImpl ptr usable frames junk h (by omega)
      have hc := ih (n + 1) _ st1 h1 (by omega) hrun2
      have : n + (rest.length + 1) = n + 1 + rest.length := by omega
      rw [this]; exact hc
    | dealloc ptr usable =>
      obtain ⟨r, hdel, h1⟩ := consistent_dealloc ptr usable h (by omega)
      have hrun2 : run hashImpl r.state rest = some st1 := by
        simpa [run, step, hdel] using hrun
      exact (ih n _ st1 h1 (by omega) hrun2).mono (by omega)

theorem run_of_fits (hashImpl : List Char → Nat) (s0 : State) (ops : List Op)
    (hlen : ops.length < u64) (hfit : opsFit ops = true) :
    ∃ st, run hashImpl (initTables s0) ops = some st := by
  obtain ⟨st, hrun, _⟩ := consistent_run hashImpl ops 0 (initTables s0)
    (consistent_init s0) (by omega) hfit
  exact ⟨st, hrun⟩

/-! ## Preservation of `Accounted` -/

theorem map_update_of_not_mem {l : List Nat} {p : Nat} (size : Nat → Nat) (u : Nat)
    (hp : p ∉ l) : l.map (Function.update size p u) = l.map size := by
  apply List.map_congr_left
  intro a ha
  have : a ≠ p := fun hh => hp (hh ▸ ha)
  exact Function.update_noteq this u size

theorem Accounted.consistent {size : Nat → Nat} {st : State} (h : Accounted size st) :
    Consistent (u64 - 1) st :=
  { ready := h.ready, ptrKeys := h.ptrKeys, recKeys := h.recKeys, owner := h.owner
    counts := fun k d hd => by
      have h1 := h.exact k d hd
      have h2 : (liveAddrs st.pointersTable k).length < u64 :=
        length_lt_u64 ((liveAddrs_sublist _ k).nodup h.ptrKeys)
          (fun p hp => h.addrs p ((liveAddrs_sublist _ k).subset hp))
      omega }

theorem accounted_init (s0 : State) (size : Nat → Nat) : Accounted size (initTables s0) :=
  { ready := rfl
    ptrKeys := List.nodup_nil
    recKeys := List.nodup_nil
    addrs := fun p hp => by simp [initTables, tkeys] at hp
    owner := fun p h hm => by simp [initTables] at hm
    exact := fun h d hm => by simp [initTables] at hm }

theorem accounted_alloc (hashImpl : List Char → Nat) {size : Nat → Nat} {st : State}
    (ptr usable : Nat) (frames : List (List Char)) (junk : List Char) (h : Accounted size st)
    (hnull : ptr ≠ 0) (hword : ptr < u64) (hfresh : tfind ptr st.pointersTable = none) :
    Accounted (Function.update size ptr usable)
      (operatorNewBody hashImpl st ptr usable frames junk).1 := by
  have hnk : ptr ∉ tkeys st.pointersTable := (tfind_eq_none_iff _ _).mp hfresh
  rw [operatorNewBody_ready hashImpl st ptr usable frames junk h.ready, assign_fresh hfresh]
  have hkeys : (tkeys ((ptr, stackHash hashImpl st.track frames) :: st.pointersTable)).Nodup :=
    List.nodup_cons.mpr ⟨hnk, h.ptrKeys⟩
  have haddrs : ∀ p, p ∈ tkeys ((ptr, stackHash hashImpl st.track frames) :: st.pointersTable) →
      0 < p ∧ p < u64 := by
    intro p hp
    rcases List.mem_cons.mp hp with h1 | h1
    · have : p = ptr := h1
      omega
    · exact h.addrs p h1
  refine { ready := rfl, ptrKeys := hkeys, recKeys := ?_, addrs := haddrs,
           owner := ?_, exact := ?_ }
  · show (tkeys (tmodify _ _
      (tindex _ (AllocationDescription.init junk) st.allocationsTable))).Nodup
    rw [tkeys_tmodify]
    exact nodup_tkeys_tindex h.recKeys
  · intro q k hm
    show k ∈ tkeys (tmodify _ _ (tindex _ (AllocationDescription.init junk) st.allocationsTable))
    rw [tkeys_tmodify]
    rcases List.mem_cons.mp hm with h1 | h1
    · rw [(Prod.mk.inj h1).2]
      exact mem_tkeys_tindex _ _ _
    · have := h.owner q k h1
      rw [tkeys_tindex]
      split
      · exact this
      · exact List.mem_cons_of_mem _ this
  · intro k d hm
    have hlt : (liveAddrs ((ptr, stackHash hashImpl st.track frames) :: st.pointersTable)
        k).length < u64 :=
      length_lt_u64 ((liveAddrs_sublist _ k).nodup hkeys)
        (fun p hp => haddrs p ((liveAddrs_sublist _ k).subset hp))
    have hnot : ptr ∉ liveAddrs st.pointersTable k :=
      fun hh => hnk ((liveAddrs_sublist _ k).subset hh)
    have hmap := map_update_of_not_mem size usable hnot
    show d.count = (liveAddrs (_ :: st.pointersTable) k).length ∧
      d.alloc_size = ((liveAddrs (_ :: st.pointersTable) k).map
        (Function.update size ptr usable)).sum % u64 ∧ 1 ≤ d.count
    rw [liveAddrs_cons] at hlt ⊢
    rcases mem_tmodify_tindex.mp hm with ⟨hk, hd⟩ | ⟨hk, ⟨v, hv, hd⟩ | ⟨hno, hd⟩⟩
    · have hk2 : ¬ stackHash hashImpl st.track frames = k := fun hh => hk hh.symm
      simp only [hk2, if_false, hmap]
      exact h.exact k d hd
    · have hv2 := h.exact _ v hv
      rw [← hk] at hv2
      simp only [← hk, if_true, List.length_cons, List.map_cons, Function.update_same,
        List.sum_cons, hmap] at hlt ⊢
      have hc : d.count = v.count + 1 := by
        rw [hd]; exact recordAllocation_count _ _ _ _ (by omega)
      refine ⟨by omega, ?_, by omega⟩
      rw [hd]
      show (v.alloc_size + usable) % u64 = _
      rw [hv2.2.1, Nat.mod_add_mod, Nat.add_comm]
    · have hz : liveAddrs st.pointersTable k = [] := by
        apply liveAddrs_eq_nil
        intro q hq
        exact hno (hk ▸ h.owner q k hq)
      have hpos : (0 : Nat) + 1 < u64 := by
        unfold u64; norm_num
      have hc : d.count = 1 := by
        rw [hd]
        exact recordAllocation_count _ _ _ (AllocationDescription.init junk) hpos
      simp only [← hk, if_true, List.length_cons, List.map_cons, Function.update_same,
        List.sum_cons, hz, List.length_nil, List.map_nil, List.sum_nil] at hlt ⊢
      refine ⟨by omega, ?_, by omega⟩
      rw [hd]
      show (0 + usable) % u64 = _
      simp

theorem sub_mod_u64 (a b : Nat) :
    ((a + b) % u64 + (u64 - a % u64)) % u64 = b % u64 := by
  have hpos : 0 < u64 := by unfold u64; positivity
  have h1 : a % u64 < u64 := Nat.mod_lt _ hpos
  have h2 : (a + b) % u64 + (u64 - a % u64) ≡ b [MOD u64] := by
    have h3 : (a + b) % u64 + (u64 - a % u64) + a % u64 ≡ b + a % u64 [MOD u64] := by
      have : (a + b) % u64 + (u64 - a % u64) + a % u64 = (a + b) % u64 + u64 := by omega
      rw [this]
      show ((a + b) % u64 + u64) % u64 = (b + a % u64) % u64
      rw [Nat.add_mod_right, Nat.mod_mod, Nat.add_mod_mod, Nat.add_comm]
    exact Nat.ModEq.add_right_cancel' _ h3
  exact h2

theorem accounted_dealloc {size : Nat → Nat} {st : State} (ptr usable : Nat)
    (r : DeleteOutcome) (h : Accounted size st)
    (hsize : tfind ptr st.pointersTable ≠ none → usable = size ptr)
    (hdel : makeDelete st ptr usable = some r) : Accounted size r.state := by
  have hpos : 0 < u64 := by unfold u64; positivity
  obtain ⟨r1, hdel1, hc⟩ := consistent_dealloc ptr usable h.consistent (by omega)
  have hr : r1 = r := Option.some.inj (hdel1.symm.trans hdel)
  subst hr
  cases hf : tfind ptr st.pointersTable with
  | none =>
    rw [makeDelete_untracked st ptr usable hf] at hdel
    rw [← Option.some.inj hdel]
    exact h
  | some hash =>
    have hus : usable = size ptr := hsize (by rw [hf]; simp)
    have hkey : hash ∈ tkeys st.allocationsTable := h.owner ptr hash (mem_of_tfind hf)
    cases hrec : tfind hash st.allocationsTable with
    | none => exact absurd hkey ((tfind_eq_none_iff _ _).mp hrec)
    | some entry =>
      have hent := h.exact hash entry (mem_of_tfind hrec)
      have hperm := fun k => liveAddrs_terase h.ptrKeys hf k
      have hlt : (liveAddrs st.pointersTable hash).length < u64 :=
        length_lt_u64 ((liveAddrs_sublist _ hash).nodup h.ptrKeys)
          (fun p hp => h.addrs p ((liveAddrs_sublist _ hash).subset hp))
      have hcnt : (recordDeallocation usable entry).count = entry.count - 1 :=
        recordDeallocation_count usable entry hent.2.2 (by omega)
      rw [makeDelete_tracked st ptr usable hash entry h.ready hf hrec] at hdel
      have hst := congrArg DeleteOutcome.state (Option.some.inj hdel)
      simp only at hst
      refine { ready := hc.ready, ptrKeys := hc.ptrKeys, recKeys := hc.recKeys,
               addrs := ?_, owner := hc.owner, exact := ?_ }
      · intro p hp
        rw [← hst] at hp
        have hp2 : p ∈ tkeys (terase ptr st.pointersTable) := hp
        rw [tkeys_terase] at hp2
        exact h.addrs p (List.mem_of_mem_filter hp2)
      · intro k d hm
        have hone := (hc.counts k d hm).2.1
        rw [← hst] at hm ⊢
        show d.count = (liveAddrs (terase ptr st.pointersTable) k).length ∧
          d.alloc_size = ((liveAddrs (terase ptr st.pointersTable) k).map size).sum % u64 ∧
          1 ≤ d.count
        have hm2 : (k, d) ∈ tmodify hash (recordDeallocation usable) st.allocationsTable := by
          have hm3 : (k, d) ∈ (if (recordDeallocation usable entry).count = 0
              then terase hash (tmodify hash (recordDeallocation usable) st.allocationsTable)
              else tmodify hash (recordDeallocation usable) st.allocationsTable) := hm
          split at hm3
          · exact (mem_terase.mp hm3).1
          · exact hm3
        rcases mem_tmodify.mp hm2 with ⟨hk, hd⟩ | ⟨hk, v, hv, hd⟩
        · have hk2 : ¬ hash = k := fun hh => hk hh.symm
          have hl := hperm k
          simp only [hk2, if_false] at hl
          rw [hl]
          exact h.exact k d hd
        · have hve : v = entry := by
            have := tfind_of_mem h.recKeys hv
            rw [hrec] at this
            exact (Option.some.inj this).symm
          have hl := hperm hash
          simp only [if_true] at hl
          have hlen := hl.length_eq
          have hsum := (hl.map size).sum_eq
          simp only [List.length_cons, List.map_cons, List.sum_cons] at hlen hsum
          rw [hk]
          refine ⟨?_, ?_, hone⟩
          · rw [hd, hve, hcnt]; omega
          · rw [hd, hve]
            show (entry.alloc_size + (u64 - usable % u64)) % u64 = _
            rw [hent.2.1, hsum, hus]
            exact sub_mod_u64 _ _

theorem accounted_of_tracks {hashImpl : List Char → Nat} {st : State} {size : Nat → Nat}
    (h : Tracks hashImpl st size) : Accounted size st := by
  induction h with
  | start s0 size => exact accounted_init s0 size
  | allocate ptr usable frames junk r _ hnull hword hfresh hnew ih =>
    rw [operatorNew_some hnew]
    exact accounted_alloc hashImpl ptr usable frames junk ih hnull hword hfresh
  | deallocate ptr usable r _ hsize hdel ih =>
    exact accounted_dealloc ptr usable r ih hsize hdel

/-! ## Claims -/

/-- C1 (accounting invariant).  In every state reached from `initTables` by
allocations of non-null addresses that are not in the pointer table and by
deallocations that report for a tracked address the usable size reported at its
allocation, every record `(h, d)` of the allocation table has `count` equal to
the number of pointer-table entries whose value is `h`, and `alloc_size` equal to
the sum of the usable sizes of exactly those addresses; the sum is taken in
`uint64_t`, so it is the plain sum whenever that is below `2 ^ 64`.  The
allocations are the calls `operator new` completes: a call that would leave
`track` or `stack` has no result and reaches no state. -/
theorem accounting_invariant (hashImpl : List Char → Nat) (st : State) (size : Nat → Nat)
    (hreach : Tracks hashImpl st size) (h : Nat) (d : AllocationDescription)
    (hd : (h, d) ∈ st.allocationsTable) :
    d.count = (liveAddrs st.pointersTable h).length ∧
    d.alloc_size = ((liveAddrs st.pointersTable h).map size).sum % 2 ^ 64 ∧
    (((liveAddrs st.pointersTable h).map size).sum < 2 ^ 64 →
      d.alloc_size = ((liveAddrs st.pointersTable h).map size).sum) := by
  have hacc := (accounted_of_tracks hreach).exact h d hd
  refine ⟨hacc.1, hacc.2.1, fun hlt => ?_⟩
  rw [hacc.2.1]
  exact Nat.mod_eq_of_lt hlt

set_option maxRecDepth 100000 in
theorem accounting_invariant_witness :
    (1 : Nat) = (liveAddrs sampleLive.pointersTable hashA).length ∧
    (40 : Nat) = ((liveAddrs sampleLive.pointersTable hashA).map
      (Function.update (Function.update (fun _ => 0) 4096 24) 8192 40)).sum % 2 ^ 64 ∧
    (((liveAddrs sampleLive.pointersTable hashA).map
      (Function.update (Function.update (fun _ => 0) 4096 24) 8192 40)).sum < 2 ^ 64 →
      (40 : Nat) = ((liveAddrs sampleLive.pointersTable hashA).map
        (Function.update (Function.update (fun _ => 0) 4096 24) 8192 40)).sum) :=
  accounting_invariant sampleHash sampleLive
    (Function.update (Function.update (fun _ => 0) 4096 24) 8192 40)
    (Tracks.deallocate 4096 24 { state := sampleLive, reachedAssert := true, freed := [4096] }
      (Tracks.allocate 8192 40 siteA [] (bothLive, 8192)
        (Tracks.allocate 4096 24 siteA [] (oneLive, 4096) (Tracks.start startState (fun _ => 0))
          (by decide) (by decide) (by decide) (by decide))
        (by decide) (by decide) (by decide) (by decide))
      (fun _ => by decide) (by decide))
    hashA { count := 1, alloc_size := 40, stack := stackA } (by decide)

/-- C2.  Take a sequence of fewer than `2 ^ 64` allocate / deallocate calls run
from `initTables` (addresses arbitrary: null, or allocated again while still in
the pointer table).  In every state it reaches every pointer-table value is a key
of the allocation table, so the record lookup of `makeDelete` succeeds and
`makeDelete` does not fail the assertion there, whatever pointer it is given.
No deallocation of the sequence fails the assertion: the sequence can stop only
at an allocation that leaves the arrays, and it reaches a state when the
formatted stack text of every allocation fits the arrays. -/
theorem pointer_values_are_record_keys (hashImpl : List Char → Nat) (s0 : State)
    (ops : List Op) (hlen : ops.length < 2 ^ 64) :
    (opsFit ops = true → ∃ st, run hashImpl (initTables s0) ops = some st) ∧
    (∀ st, run hashImpl (initTables s0) ops = some st →
      (∀ p h, (p, h) ∈ st.pointersTable → h ∈ tkeys st.allocationsTable) ∧
      (∀ p h, tfind p st.pointersTable = some h →
        ∃ d, tfind h st.allocationsTable = some d) ∧
      (∀ ptr usable, makeDelete st ptr usable ≠ none)) ∧
    ∀ before after ptr usable st, ops = before ++ Op.dealloc ptr usable :: after →
      run hashImpl (initTables s0) before = some st → makeDelete st ptr usable ≠ none := by
  have hlen2 : ops.length < u64 := by simpa [u64] using hlen
  refine ⟨run_of_fits hashImpl s0 ops hlen2, ?_, ?_⟩
  · intro st hrun
    have hc := consistent_of_run hashImpl ops 0 (initTables s0) st (consistent_init s0)
      (by omega) hrun
    refine ⟨hc.owner, ?_, ?_⟩
    · intro p h hf
      have hk := hc.owner p h (mem_of_tfind hf)
      cases hrec : tfind h st.allocationsTable with
      | none => exact absurd hk ((tfind_eq_none_iff _ _).mp hrec)
      | some d => exact ⟨d, rfl⟩
    · intro ptr usable
      obtain ⟨r, hr, _⟩ := consistent_dealloc ptr usable hc (by omega)
      rw [hr]
      simp
  · intro before after ptr usable st heq hrun
    have hl : before.length < ops.length := by
      rw [heq, List.length_append, List.length_cons]
      omega
    have hc := consistent_of_run hashImpl before 0 (initTables s0) st (consistent_init s0)
      (by omega) hrun
    obtain ⟨r, hr, _⟩ := consistent_dealloc ptr usable hc (by omega)
    rw [hr]
    simp

set_option maxRecDepth 100000 in
theorem pointer_values_are_record_keys_witness :
    ∃ st, run sampleHash (initTables startState)
        [Op.alloc 4096 24 siteA [], Op.alloc 4096 40 siteB [], Op.alloc 0 0 siteA [],
          Op.dealloc 4096 40, Op.dealloc 0 0] = some st ∧
      (∀ p h, (p, h) ∈ st.pointersTable → h ∈ tkeys st.allocationsTable) ∧
      (∀ p h, tfind p st.pointersTable = some h →
        ∃ d, tfind h st.allocationsTable = some d) ∧
      (∀ ptr usable, makeDelete st ptr usable ≠ none) :=
  have h := pointer_values_are_record_keys sampleHash startState
    [Op.alloc 4096 24 siteA [], Op.alloc 4096 40 siteB [], Op.alloc 0 0 siteA [],
      Op.dealloc 4096 40, Op.dealloc 0 0] (by decide)
  (h.1 (by decide)).elim (fun st hrun => ⟨st, hrun, h.2.1 st hrun⟩)

/-! ## Paired calls -/

theorem operatorNewBody_snd (hashImpl : List Char → Nat) (st : State) (ptr usable : Nat)
    (frames : List (List Char)) (junk : List Char) :
    (operatorNewBody hashImpl st ptr usable frames junk).2 = ptr := by
  unfold operatorNewBody
  split <;> rfl

theorem tfind_single {V : Type} (k : Nat) (v : V) : tfind k [(k, v)] = some v := by
  rw [tfind_cons]; simp

theorem terase_single {V : Type} (k : Nat) (v : V) : terase k [(k, v)] = [] := by
  simp [terase]

theorem tmodify_single {V : Type} (k : Nat) (f : V → V) (v : V) :
    tmodify k f [(k, v)] = [(k, f v)] := by
  simp [tmodify]

theorem tindex_nil {V : Type} (k : Nat) (v : V) : tindex k v [] = [(k, v)] := rfl

theorem allocThenFree_empty (hashImpl : List Char → Nat) (st : State) (c : AllocCall)
    (usableAtFree : Nat) (hr : st.table_ready = true) (ha : st.allocationsTable = [])
    (hp : st.pointersTable = [])
    (hok : operatorNew hashImpl st c.ptr c.usable c.frames c.junk
      = some (operatorNewBody hashImpl st c.ptr c.usable c.frames c.junk)) :
    ∃ st1, allocThenFree hashImpl st c usableAtFree = some st1 ∧
      st1.table_ready = true ∧ st1.allocationsTable = [] ∧ st1.pointersTable = [] := by
  have hone : (0 : Nat) + 1 < u64 := by unfold u64; norm_num
  have hnew := operatorNewBody_ready hashImpl st c.ptr c.usable c.frames c.junk hr
  rw [ha, hp, tindex_nil, tindex_nil, tmodify_single, tmodify_single] at hnew
  generalize hF : recordAllocation (formatTrack st.track 0 (c.frames.take kStackSize)).1
    (formatTrack st.track 0 (c.frames.take kStackSize)).2 c.usable
    (AllocationDescription.init c.junk) = rec1 at hnew
  have hc1 : rec1.count = 1 := by
    rw [← hF]
    exact recordAllocation_count _ _ _ (AllocationDescription.init c.junk) hone
  have hc2 : (recordDeallocation usableAtFree rec1).count = 0 := by
    rw [recordDeallocation_count usableAtFree rec1 (by omega) (by omega), hc1]
  unfold allocThenFree
  rw [hok, Option.some_bind, operatorNewBody_snd]
  generalize (operatorNewBody hashImpl st c.ptr c.usable c.frames c.junk).1 = s1 at hnew
  subst hnew
  rw [makeDelete_tracked _ c.ptr usableAtFree (stackHash hashImpl st.track c.frames) rec1 rfl
    (tfind_single _ _) (tfind_single _ _)]
  refine ⟨_, rfl, rfl, ?_, ?_⟩
  · dsimp only
    rw [if_pos hc2, tmodify_single, terase_single]
  · dsimp only
    exact terase_single _ _

theorem allocThenFree_some {hashImpl : List Char → Nat} {st st1 : State} {c : AllocCall}
    {usableAtFree : Nat} (h : allocThenFree hashImpl st c usableAtFree = some st1) :
    operatorNew hashImpl st c.ptr c.usable c.frames c.junk
      = some (operatorNewBody hashImpl st c.ptr c.usable c.frames c.junk) := by
  unfold allocThenFree at h
  cases hnew : operatorNew hashImpl st c.ptr c.usable c.frames c.junk with
  | none =>
    rw [hnew] at h
    exact absurd h (by simp)
  | some r => rw [operatorNew_some hnew]

/-- C3.  Start from the empty tables produced by `initTables` and take a finite
sequence of allocations, each immediately followed by the deallocation of the
pointer it returned (whatever usable size is reported then).  Whenever the
sequence completes it leaves the allocation table and the pointer table empty,
and it completes when the formatted stack text of every allocation fits the
arrays. -/
theorem paired_calls_leave_tables_empty (hashImpl : List Char → Nat) (s0 : State)
    (calls : List (AllocCall × Nat)) :
    ((∀ c, c ∈ calls → stackFits c.1.frames = true) →
      ∃ st, runPaired hashImpl (initTables s0) calls = some st) ∧
    ∀ st, runPaired hashImpl (initTables s0) calls = some st →
      st.allocationsTable = [] ∧ st.pointersTable = [] := by
  have keyA : ∀ (cs : List (AllocCall × Nat)) (st : State), st.table_ready = true →
      st.allocationsTable = [] → st.pointersTable = [] →
      (∀ c, c ∈ cs → stackFits c.1.frames = true) →
      ∃ st1, runPaired hashImpl st cs = some st1 := by
    intro cs
    induction cs with
    | nil => intro st _ _ _ _; exact ⟨st, rfl⟩
    | cons c rest ih =>
      intro st hr ha hp hf
      obtain ⟨s1, h1, hr1, ha1, hp1⟩ := allocThenFree_empty hashImpl st c.1 c.2 hr ha hp
        (operatorNew_of_fits hashImpl st c.1.ptr c.1.usable c.1.frames c.1.junk
          (hf c (List.mem_cons_self _ _)))
      obtain ⟨s2, h2⟩ := ih s1 hr1 ha1 hp1
        (fun c2 hc2 => hf c2 (List.mem_cons_of_mem _ hc2))
      refine ⟨s2, ?_⟩
      simp [runPaired, h1, h2]
  have keyB : ∀ (cs : List (AllocCall × Nat)) (st st2 : State), st.table_ready = true →
      st.allocationsTable = [] → st.pointersTable = [] →
      runPaired hashImpl st cs = some st2 →
      st2.allocationsTable = [] ∧ st2.pointersTable = [] := by
    intro cs
    induction cs with
    | nil =>
      intro st st2 _ ha hp hrun
      rw [← Option.some.inj hrun]
      exact ⟨ha, hp⟩
    | cons c rest ih =>
      intro st st2 hr ha hp hrun
      cases hfirst : allocThenFree hashImpl st c.1 c.2 with
      | none => simp [runPaired, hfirst] at hrun
      | some s0 =>
        obtain ⟨s1, h1, hr1, ha1, hp1⟩ := allocThenFree_empty hashImpl st c.1 c.2 hr ha hp
          (allocThenFree_some hfirst)
        have hrun2 : runPaired hashImpl s1 rest = some st2 := by
          simpa [runPaired, h1] using hrun
        exact ih s1 st2 hr1 ha1 hp1 hrun2
  exact ⟨keyA calls (initTables s0) rfl rfl rfl,
    fun st hrun => keyB calls (initTables s0) st rfl rfl rfl hrun⟩

set_option maxRecDepth 100000 in
theorem paired_calls_leave_tables_empty_witness :
    ∃ st, runPaired sampleHash (initTables startState)
        [({ ptr := 4096, usable := 24, frames := siteA, junk := [] }, 24),
         ({ ptr := 4096, usable := 40, frames := siteB, junk := ['x'] }, 48),
         ({ ptr := 0, usable := 0, frames := [], junk := [] }, 0)] = some st ∧
      st.allocationsTable = [] ∧ st.pointersTable = [] :=
  have h := paired_calls_leave_tables_empty sampleHash startState
    [({ ptr := 4096, usable := 24, frames := siteA, junk := [] }, 24),
     ({ ptr := 4096, usable := 40, frames := siteB, junk := ['x'] }, 48),
     ({ ptr := 0, usable := 0, frames := [], junk := [] }, 0)]
  (h.1 (by decide)).elim (fun st hrun => ⟨st, hrun, h.2 st hrun⟩)

/-! ## Allocations of one call site -/

theorem tindex_single {V : Type} (k : Nat) (v w : V) : tindex k v [(k, w)] = [(k, w)] := by
  unfold tindex
  rw [tfind_single]
  rfl

theorem length_terase_of_mem {V : Type} {k : Nat} {t : List (Nat × V)}
    (hnd : (tkeys t).Nodup) (hk : k ∈ tkeys t) :
    (terase k t).length + 1 = t.length := by
  induction t with
  | nil => simp [tkeys] at hk
  | cons e t ih =>
    have hnd2 : e.1 ∉ tkeys t ∧ (tkeys t).Nodup := by
      simpa [tkeys, List.nodup_cons] using hnd
    by_cases he : e.1 = k
    · have h1 : terase k (e :: t) = terase k t := by
        simp [terase, List.filter_cons, he]
      rw [h1, terase_of_not_mem (he ▸ hnd2.1)]
      rfl
    · have h1 : terase k (e :: t) = e :: terase k t := by
        simp [terase, List.filter_cons, he]
      have hk2 : k ∈ tkeys t := by
        rcases List.mem_cons.mp hk with h2 | h2
        · exact absurd h2.symm he
        · exact h2
      rw [h1, List.length_cons, List.length_cons, ih hnd2.2 hk2]

theorem oneSite_init (h : Nat) (s0 : State) : OneSite h (initTables s0) :=
  { ready := rfl
    ptrKeys := List.nodup_nil
    values := fun p k hm => by simp [initTables] at hm
    below := by
      show (0 : Nat) < u64
      unfold u64; positivity
    table := Or.inl ⟨rfl, rfl⟩ }

theorem oneSite_alloc (hashImpl : List Char → Nat) {h : Nat} {st : State}
    (ptr usable : Nat) (frames : List (List Char)) (junk : List Char) (hs : OneSite h st)
    (hh : stackHash hashImpl st.track frames = h)
    (hfresh : tfind ptr st.pointersTable = none)
    (hlen : st.pointersTable.length + 1 < u64) :
    OneSite h (operatorNewBody hashImpl st ptr usable frames junk).1 ∧
    (operatorNewBody hashImpl st ptr usable frames junk).1.pointersTable
      = (ptr, h) :: st.pointersTable ∧
    siteBytes (operatorNewBody hashImpl st ptr usable frames junk).1 h
      = (siteBytes st h + usable) % u64 := by
  have hnk : ptr ∉ tkeys st.pointersTable := (tfind_eq_none_iff _ _).mp hfresh
  have hnew := operatorNewBody_ready hashImpl st ptr usable frames junk hs.ready
  rw [assign_fresh hfresh, hh] at hnew
  generalize (operatorNewBody hashImpl st ptr usable frames junk).1 = s1 at hnew ⊢
  subst hnew
  have hkeys : (tkeys ((ptr, h) :: st.pointersTable)).Nodup :=
    List.nodup_cons.mpr ⟨hnk, hs.ptrKeys⟩
  have hvals : ∀ p k, (p, k) ∈ (ptr, h) :: st.pointersTable → k = h := by
    intro p k hm
    rcases List.mem_cons.mp hm with h1 | h1
    · exact (Prod.mk.inj h1).2
    · exact hs.values p k h1
  rcases hs.table with ⟨hp, ha⟩ | ⟨d, ha, hc, hne⟩
  · rw [ha, tindex_nil, tmodify_single]
    refine ⟨{ ready := rfl, ptrKeys := hkeys, values := hvals, below := hlen,
              table := Or.inr ⟨_, rfl, ?_, by simp⟩ }, rfl, ?_⟩
    · dsimp only
      rw [hp]
      exact recordAllocation_count _ _ _ (AllocationDescription.init junk) (by
        have : (0 : Nat) < u64 := by unfold u64; positivity
        show 0 + 1 < u64
        omega)
    · unfold siteBytes
      dsimp only
      rw [tfind_single, ha, tfind_nil]
      rfl
  · rw [ha, tindex_single, tmodify_single]
    refine ⟨{ ready := rfl, ptrKeys := hkeys, values := hvals, below := hlen,
              table := Or.inr ⟨_, rfl, ?_, by simp⟩ }, rfl, ?_⟩
    · dsimp only
      rw [recordAllocation_count _ _ _ d (by omega), hc]
      rfl
    · unfold siteBytes
      dsimp only
      rw [tfind_single, ha, tfind_single]
      rfl

theorem oneSite_dealloc {h : Nat} {st : State} (ptr usable : Nat) (hs : OneSite h st) :
    ∃ r, makeDelete st ptr usable = some r ∧ OneSite h r.state ∧
      r.state.pointersTable = terase ptr st.pointersTable := by
  cases hf : tfind ptr st.pointersTable with
  | none =>
    refine ⟨_, makeDelete_untracked st ptr usable hf, hs, ?_⟩
    exact (terase_of_not_mem ((tfind_eq_none_iff _ _).mp hf)).symm
  | some k =>
    have hmem : (ptr, k) ∈ st.pointersTable := mem_of_tfind hf
    have hk : k = h := hs.values ptr k hmem
    subst hk
    have hlen := length_terase_of_mem hs.ptrKeys (mem_tkeys_of_mem hmem)
    rcases hs.table with ⟨hp, _⟩ | ⟨d, ha, hc, hne⟩
    · rw [hp] at hmem
      simp at hmem
    · have hrec : tfind k st.allocationsTable = some d := by
        rw [ha]; exact tfind_single _ _
      have hcnt : (recordDeallocation usable d).count = d.count - 1 :=
        recordDeallocation_count usable d (by omega) (by have := hs.below; omega)
      refine ⟨_, makeDelete_tracked st ptr usable k d hs.ready hf hrec, ?_, rfl⟩
      refine { ready := hs.ready, ptrKeys := nodup_tkeys_terase hs.ptrKeys,
               values := fun p q hm => hs.values p q (mem_terase.mp hm).1,
               below := ?_, table := ?_ }
      · dsimp only
        have := hs.below
        omega
      · dsimp only
        rw [ha, tmodify_single]
        by_cases hz : (recordDeallocation usable d).count = 0
        · rw [if_pos hz, terase_single]
          refine Or.inl ⟨?_, rfl⟩
          apply List.eq_nil_of_length_eq_zero
          rw [hcnt] at hz
          omega
        · rw [if_neg hz]
          refine Or.inr ⟨_, rfl, ?_, ?_⟩
          · rw [hcnt]; omega
          · intro hnil
            rw [hnil] at hlen
            rw [hcnt] at hz
            simp only [List.length_nil] at hlen
            omega

theorem allocAll_some {hashImpl : List Char → Nat} {st st1 : State} {c : AllocCall}
    {rest : List AllocCall} (h : allocAll hashImpl st (c :: rest) = some st1) :
    operatorNew hashImpl st c.ptr c.usable c.frames c.junk
        = some (operatorNewBody hashImpl st c.ptr c.usable c.frames c.junk) ∧
      allocAll hashImpl (operatorNewBody hashImpl st c.ptr c.usable c.frames c.junk).1 rest
        = some st1 := by
  cases hnew : operatorNew hashImpl st c.ptr c.usable c.frames c.junk with
  | none => simp [allocAll, hnew] at h
  | some r =>
    have hr := operatorNew_some hnew
    subst hr
    refine ⟨rfl, ?_⟩
    simpa [allocAll, hnew] using h

/-- Allocations that all format one text shorter than `kBufferSize` complete. -/
theorem allocAll_of_room (hashImpl : List Char → Nat) (text : List Char)
    (hroom : text.length < kBufferSize) (cs : List AllocCall) :
    ∀ st : State, allSameText hashImpl text st cs = true →
      ∃ st1, allocAll hashImpl st cs = some st1 := by
  induction cs with
  | nil => intro st _; exact ⟨st, rfl⟩
  | cons c rest ih =>
    intro st hsame
    simp only [allSameText, Bool.and_eq_true, decide_eq_true_eq] at hsame
    have hfit : stackFits c.frames = true := by
      rw [stackFits_iff, ← length_stackText st.track c.frames, hsame.1]
      exact hroom
    have hnew := operatorNew_of_fits hashImpl st c.ptr c.usable c.frames c.junk hfit
    have hsame2 : allSameText hashImpl text
        (operatorNewBody hashImpl st c.ptr c.usable c.frames c.junk).1 rest = true := by
      have := hsame.2
      rw [hnew] at this
      exact this
    obtain ⟨st1, h1⟩ := ih _ hsame2
    refine ⟨st1, ?_⟩
    show (operatorNew hashImpl st c.ptr c.usable c.frames c.junk).bind
      (fun r => allocAll hashImpl r.1 rest) = some st1
    rw [hnew, Option.some_bind]
    exact h1

theorem oneSite_allocAll (hashImpl : List Char → Nat) (text : List Char)
    (cs : List AllocCall) :
    ∀ st st1 : State, OneSite (hashImpl text) st →
      siteBytes st (hashImpl text) < u64 →
      allSameText hashImpl text st cs = true →
      (cs.map AllocCall.ptr).Nodup →
      (∀ c, c ∈ cs → c.ptr ∉ tkeys st.pointersTable) →
      st.pointersTable.length + cs.length < u64 →
      allocAll hashImpl st cs = some st1 →
      OneSite (hashImpl text) st1 ∧
        st1.pointersTable.length = st.pointersTable.length + cs.length ∧
        tkeys st1.pointersTable = (cs.map AllocCall.ptr).reverse ++ tkeys st.pointersTable ∧
        siteBytes st1 (hashImpl text)
          = (siteBytes st (hashImpl text) + (cs.map AllocCall.usable).sum) % u64 := by
  induction cs with
  | nil =>
    intro st st1 hs hb _ _ _ _ hrun
    rw [← Option.some.inj hrun]
    refine ⟨hs, rfl, by simp, ?_⟩
    simp [Nat.mod_eq_of_lt hb]
  | cons c rest ih =>
    intro st st1 hs hb hsame hnd hfresh hlen hrun
    have hpos : 0 < u64 := by unfold u64; positivity
    simp only [allSameText, Bool.and_eq_true, decide_eq_true_eq] at hsame
    simp only [List.map_cons, List.nodup_cons] at hnd
    simp only [List.length_cons] at hlen
    obtain ⟨hnew, hrun2⟩ := allocAll_some hrun
    have hsame2 : allSameText hashImpl text
        (operatorNewBody hashImpl st c.ptr c.usable c.frames c.junk).1 rest = true := by
      have := hsame.2
      rw [hnew] at this
      exact this
    have hh : stackHash hashImpl st.track c.frames = hashImpl text := by
      unfold stackHash; rw [hsame.1]
    have hf : tfind c.ptr st.pointersTable = none :=
      (tfind_eq_none_iff _ _).mpr (hfresh c (List.mem_cons_self _ _))
    obtain ⟨hs1, hp1, hb1⟩ := oneSite_alloc hashImpl c.ptr c.usable c.frames c.junk hs hh hf
      (by omega)
    have hfresh1 : ∀ c2, c2 ∈ rest →
        c2.ptr ∉ tkeys (operatorNewBody hashImpl st c.ptr c.usable c.frames
          c.junk).1.pointersTable := by
      intro c2 hc2 hmem
      rw [hp1] at hmem
      rcases List.mem_cons.mp hmem with h1 | h1
      · have h2 : c2.ptr = c.ptr := h1
        exact hnd.1 (h2 ▸ List.mem_map.mpr ⟨c2, hc2, rfl⟩)
      · exact hfresh c2 (List.mem_cons_of_mem _ hc2) h1
    have hlen1 : (operatorNewBody hashImpl st c.ptr c.usable c.frames
        c.junk).1.pointersTable.length + rest.length < u64 := by
      rw [hp1, List.length_cons]; omega
    have hbb : siteBytes (operatorNewBody hashImpl st c.ptr c.usable c.frames c.junk).1
        (hashImpl text) < u64 := by
      rw [hb1]; exact Nat.mod_lt _ hpos
    obtain ⟨r1, r2, r3, r4⟩ := ih _ st1 hs1 hbb hsame2 hnd.2 hfresh1 hlen1 hrun2
    refine ⟨r1, ?_, ?_, ?_⟩
    · rw [r2, hp1, List.length_cons, List.length_cons]; omega
    · rw [r3, hp1]
      simp [tkeys]
    · rw [r4, hb1, List.map_cons, List.sum_cons, Nat.mod_add_mod, Nat.add_assoc]

theorem oneSite_freeAll {h : Nat} (ds : List (Nat × Nat)) :
    ∀ st : State, OneSite h st → (ds.map Prod.fst).Nodup →
      (∀ p, p ∈ ds.map Prod.fst → p ∈ tkeys st.pointersTable) →
      ∃ st1, freeAll st ds = some st1 ∧ OneSite h st1 ∧
        st1.pointersTable.length + ds.length = st.pointersTable.length := by
  induction ds with
  | nil => intro st hs _ _; exact ⟨st, rfl, hs, rfl⟩
  | cons d rest ih =>
    intro st hs hnd hsub
    simp only [List.map_cons, List.nodup_cons] at hnd
    obtain ⟨r, hdel, hs1, hp1⟩ := oneSite_dealloc d.1 d.2 hs
    have hd : d.1 ∈ tkeys st.pointersTable := hsub d.1 (by simp)
    have hlen := length_terase_of_mem hs.ptrKeys hd
    have hsub1 : ∀ p, p ∈ rest.map Prod.fst → p ∈ tkeys r.state.pointersTable := by
      intro p hp
      rw [hp1, tkeys_terase]
      refine List.mem_filter.mpr ⟨hsub p (by simp [hp]), ?_⟩
      have : p ≠ d.1 := fun hh => hnd.1 (hh ▸ hp)
      simpa using this
    obtain ⟨st1, hrun, hs2, hl2⟩ := ih r.state hs1 hnd.2 hsub1
    refine ⟨st1, ?_, hs2, ?_⟩
    · simp [freeAll, hdel, hrun]
    · rw [hp1] at hl2
      simp only [List.length_cons]
      omega

/-- C4.  Let `N ≥ 1` allocations with pairwise distinct addresses and the same
formatted stack text be made from the empty tables (`N < 2 ^ 64`).  Whenever they
complete, the allocation table holds exactly one record, with `count = N` and
`alloc_size` the `uint64_t` sum of the `N` usable sizes (the plain sum when it is
below `2 ^ 64`); deallocating any `k < N` of the addresses leaves exactly that
record with `count = N - k`, and deallocating all `N` leaves both tables empty.
The allocations complete when the common text is shorter than `kBufferSize`. -/
theorem same_site_accounting (hashImpl : List Char → Nat) (s0 : State) (text : List Char)
    (cs : List AllocCall) (hN : 1 ≤ cs.length) (hlt : cs.length < 2 ^ 64)
    (hdist : (cs.map AllocCall.ptr).Nodup)
    (hsame : allSameText hashImpl text (initTables s0) cs = true) :
    (text.length < kBufferSize → ∃ st, allocAll hashImpl (initTables s0) cs = some st) ∧
    ∀ st, allocAll hashImpl (initTables s0) cs = some st →
      (∃ d, st.allocationsTable = [(hashImpl text, d)] ∧
        d.count = cs.length ∧
        d.alloc_size = (cs.map AllocCall.usable).sum % 2 ^ 64 ∧
        ((cs.map AllocCall.usable).sum < 2 ^ 64 →
          d.alloc_size = (cs.map AllocCall.usable).sum)) ∧
      (∀ ds : List (Nat × Nat), (ds.map Prod.fst).Nodup →
        (∀ p, p ∈ ds.map Prod.fst → p ∈ cs.map AllocCall.ptr) →
        ∃ st1, freeAll st ds = some st1 ∧
          (ds.length < cs.length →
            ∃ d, st1.allocationsTable = [(hashImpl text, d)] ∧
              d.count = cs.length - ds.length) ∧
          (ds.length = cs.length →
            st1.allocationsTable = [] ∧ st1.pointersTable = [])) := by
  have hpos : 0 < u64 := by unfold u64; positivity
  have hlt2 : (initTables s0).pointersTable.length + cs.length < u64 := by
    show 0 + cs.length < u64
    simpa [u64] using hlt
  refine ⟨fun hroom => allocAll_of_room hashImpl text hroom cs (initTables s0) hsame, ?_⟩
  intro st hall
  obtain ⟨hs, hlen, hkeys, hbytes⟩ := oneSite_allocAll hashImpl text cs
    (initTables s0) st (oneSite_init _ s0) hpos hsame hdist
    (fun c _ hm => by simp [initTables, tkeys] at hm) hlt2 hall
  have hlen2 : st.pointersTable.length = cs.length := by
    rw [hlen]; show 0 + cs.length = cs.length; omega
  refine ⟨?_, ?_⟩
  · rcases hs.table with ⟨hp, _⟩ | ⟨d, ha, hc, _⟩
    · rw [hp] at hlen2
      simp only [List.length_nil] at hlen2
      omega
    · have hsz : d.alloc_size = (cs.map AllocCall.usable).sum % 2 ^ 64 := by
        have h1 : siteBytes st (hashImpl text) = d.alloc_size := by
          unfold siteBytes; rw [ha, tfind_single]
        have h2 : siteBytes (initTables s0) (hashImpl text) = 0 := rfl
        rw [← h1, hbytes, h2, Nat.zero_add]
        rfl
      refine ⟨d, ha, by rw [hc, hlen2], hsz, fun hfit => ?_⟩
      rw [hsz]; exact Nat.mod_eq_of_lt hfit
  · intro ds hnd hsub
    have hsub2 : ∀ p, p ∈ ds.map Prod.fst → p ∈ tkeys st.pointersTable := by
      intro p hp
      rw [hkeys]
      exact List.mem_append_left _ (List.mem_reverse.mpr (hsub p hp))
    obtain ⟨st1, hrun, hs1, hl1⟩ := oneSite_freeAll ds _ hs hnd hsub2
    rw [hlen2] at hl1
    refine ⟨st1, hrun, ?_, ?_⟩
    · intro hk
      rcases hs1.table with ⟨hp, _⟩ | ⟨d, ha, hc, _⟩
      · rw [hp] at hl1
        simp only [List.length_nil] at hl1
        omega
      · exact ⟨d, ha, by omega⟩
    · intro hk
      have hz : st1.pointersTable = [] := by
        apply List.eq_nil_of_length_eq_zero
        omega
      rcases hs1.table with ⟨_, ha⟩ | ⟨d, _, _, hne⟩
      · exact ⟨ha, hz⟩
      · exact absurd hz hne

set_option maxRecDepth 100000 in
theorem same_site_accounting_witness :
    ∃ st, allocAll sampleHash (initTables startState) threeAllocsA = some st ∧
      (∃ d, st.allocationsTable = [(sampleHash (stackText [] siteA), d)] ∧
        d.count = threeAllocsA.length ∧
        d.alloc_size = (threeAllocsA.map AllocCall.usable).sum % 2 ^ 64 ∧
        ((threeAllocsA.map AllocCall.usable).sum < 2 ^ 64 →
          d.alloc_size = (threeAllocsA.map AllocCall.usable).sum)) ∧
      (∀ ds : List (Nat × Nat), (ds.map Prod.fst).Nodup →
        (∀ p, p ∈ ds.map Prod.fst → p ∈ threeAllocsA.map AllocCall.ptr) →
        ∃ st1, freeAll st ds = some st1 ∧
          (ds.length < threeAllocsA.length →
            ∃ d, st1.allocationsTable = [(sampleHash (stackText [] siteA), d)] ∧
              d.count = threeAllocsA.length - ds.length) ∧
          (ds.length = threeAllocsA.length →
            st1.allocationsTable = [] ∧ st1.pointersTable = [])) :=
  have h := same_site_accounting sampleHash startState (stackText [] siteA) threeAllocsA
    (by decide) (by decide) (by decide) (by decide)
  (h.1 (by decide)).elim (fun st hrun => ⟨st, hrun, h.2 st hrun⟩)

/-! ## Independence of call sites -/

theorem terase_tmodify_same {V : Type} (h : Nat) (f : V → V) (t : List (Nat × V)) :
    terase h (tmodify h f t) = terase h t := by
  induction t with
  | nil => rfl
  | cons e t ih =>
    have ih2 : List.filter (fun e => e.1 != h) (tmodify h f t)
        = List.filter (fun e => e.1 != h) t := ih
    by_cases he : e.1 = h
    · simp [terase, tmodify, List.filter_cons, he] at ih2 ⊢
      exact ih2
    · simp [terase, tmodify, List.filter_cons, he] at ih2 ⊢
      exact ih2

theorem terase_tindex_same {V : Type} (h : Nat) (v : V) (t : List (Nat × V)) :
    terase h (tindex h v t) = terase h t := by
  unfold tindex
  split
  · rfl
  · simp [terase, List.filter_cons]

theorem terase_idem {V : Type} (h : Nat) (t : List (Nat × V)) :
    terase h (terase h t) = terase h t := by
  simp [terase, List.filter_filter]

theorem tfind_terase_ne {V : Type} {k h : Nat} (hk : k ≠ h) (t : List (Nat × V)) :
    tfind k (terase h t) = tfind k t := by
  induction t with
  | nil => rfl
  | cons e t ih =>
    by_cases he : e.1 = h
    · have h1 : terase h (e :: t) = terase h t := by
        simp [terase, List.filter_cons, he]
      have h2 : ¬ e.1 = k := fun hh => hk (hh.symm.trans he)
      rw [h1, ih, tfind_cons, if_neg h2]
    · have h1 : terase h (e :: t) = e :: terase h t := by
        simp [terase, List.filter_cons, he]
      rw [h1, tfind_cons, tfind_cons, ih]

theorem operatorNewBody_frame (hashImpl : List Char → Nat) (st : State) (ptr usable : Nat)
    (frames : List (List Char)) (junk : List Char) :
    terase (stackHash hashImpl st.track frames)
        (operatorNewBody hashImpl st ptr usable frames junk).1.allocationsTable
      = terase (stackHash hashImpl st.track frames) st.allocationsTable := by
  cases hr : st.table_ready with
  | false => rw [operatorNewBody_not_ready hashImpl st ptr usable frames junk hr]
  | true =>
    rw [operatorNewBody_ready hashImpl st ptr usable frames junk hr]
    dsimp only
    rw [terase_tmodify_same, terase_tindex_same]

theorem makeDelete_frame (st : State) (ptr usable h : Nat) (r : DeleteOutcome)
    (hstored : ∀ k, tfind ptr st.pointersTable = some k → k = h)
    (hdel : makeDelete st ptr usable = some r) :
    terase h r.state.allocationsTable = terase h st.allocationsTable := by
  cases hr : st.table_ready with
  | false =>
    rw [makeDelete_not_ready st ptr usable hr] at hdel
    rw [← Option.some.inj hdel]
  | true =>
    cases hf : tfind ptr st.pointersTable with
    | none =>
      rw [makeDelete_untracked st ptr usable hf] at hdel
      rw [← Option.some.inj hdel]
    | some k =>
      have hk := hstored k hf
      subst hk
      cases hrec : tfind k st.allocationsTable with
      | none =>
        rw [makeDelete_missing_record st ptr usable k hr hf hrec] at hdel
        exact absurd hdel (by simp)
      | some entry =>
        rw [makeDelete_tracked st ptr usable k entry hr hf hrec] at hdel
        rw [← Option.some.inj hdel]
        dsimp only
        split
        · rw [terase_idem, terase_tmodify_same]
        · rw [terase_tmodify_same]

/-- C5.  Calls of the site with hash `h` (allocations whose stack hashes to `h`,
deallocations of pointers whose stored hash is `h`) that complete, every
allocation inside the arrays and every deallocation past the assertion, leave
every record with a key different from `h` unchanged: the allocation table
without the key `h` is the same list before and after, so the record found under
any other key is the same (count, size and stack text).  A run that frees all
allocations of one site is such a sequence. -/
theorem other_sites_unchanged (hashImpl : List Char → Nat) (h : Nat) (ops : List Op)
    (st st1 : State) (htouch : touchesOnly hashImpl h st ops = true)
    (hrun : run hashImpl st ops = some st1) :
    terase h st1.allocationsTable = terase h st.allocationsTable ∧
    ∀ k, k ≠ h → tfind k st1.allocationsTable = tfind k st.allocationsTable := by
  have key : ∀ (ops : List Op) (st : State), touchesOnly hashImpl h st ops = true →
      run hashImpl st ops = some st1 →
      terase h st1.allocationsTable = terase h st.allocationsTable := by
    intro ops
    induction ops with
    | nil =>
      intro st _ hrun
      rw [← Option.some.inj hrun]
    | cons op rest ih =>
      intro st htouch hrun
      cases op with
      | alloc ptr usable frames junk =>
        simp only [touchesOnly, Bool.and_eq_true, decide_eq_true_eq] at htouch
        obtain ⟨hnew, hrun2⟩ := run_alloc_some hrun
        have ht2 : touchesOnly hashImpl h
            (operatorNewBody hashImpl st ptr usable frames junk).1 rest = true := by
          have := htouch.2
          rw [hnew] at this
          exact this
        rw [ih _ ht2 hrun2, ← htouch.1]
        exact operatorNewBody_frame hashImpl st ptr usable frames junk
      | dealloc ptr usable =>
        simp only [touchesOnly, Bool.and_eq_true] at htouch
        cases hdel : makeDelete st ptr usable with
        | none => simp [run, step, hdel] at hrun
        | some r =>
          have hrun2 : run hashImpl r.state rest = some st1 := by
            simpa [run, step, hdel] using hrun
          have ht2 : touchesOnly hashImpl h r.state rest = true := by
            have := htouch.2
            rw [hdel] at this
            exact this
          have hstored : ∀ k, tfind ptr st.pointersTable = some k → k = h := by
            intro k hk
            have := htouch.1
            rw [hk] at this
            simpa using this
          rw [ih _ ht2 hrun2]
          exact makeDelete_frame st ptr usable h r hstored hdel
  have h1 := key ops st htouch hrun
  refine ⟨h1, fun k hk => ?_⟩
  rw [← tfind_terase_ne hk st1.allocationsTable, h1, tfind_terase_ne hk]

set_option maxRecDepth 100000 in
theorem other_sites_unchanged_witness :
    hashA ≠ hashB ∧
    run sampleHash (initTables startState)
      [Op.alloc 4096 24 siteA [], Op.alloc 8192 40 siteB [], Op.alloc 12288 24 siteA []]
      = some twoSites ∧
    terase hashA onlySiteB.allocationsTable = terase hashA twoSites.allocationsTable ∧
    ∀ k, k ≠ hashA → tfind k onlySiteB.allocationsTable = tfind k twoSites.allocationsTable :=
  ⟨by decide, by decide,
    other_sites_unchanged sampleHash hashA [Op.dealloc 4096 24, Op.dealloc 12288 24]
      twoSites onlySiteB (by decide) (by decide)⟩

/-! ## Untracked pointers and the inert engine -/

/-- C6.  In every ready state (indeed in every state), `makeDelete` of an address
that is not a key of the pointer table succeeds and returns the state unchanged,
so the allocation table and the pointer table are exactly the ones before; it
does not reach the assertion, and it calls `free` on the address. -/
theorem untracked_dealloc_noop (st : State) (ptr usable : Nat)
    (hnot : ptr ∉ tkeys st.pointersTable) :
    ∃ r, makeDelete st ptr usable = some r ∧ r.state = st ∧
      r.state.allocationsTable = st.allocationsTable ∧
      r.state.pointersTable = st.pointersTable ∧
      r.reachedAssert = false ∧ r.freed = [ptr] :=
  ⟨_, makeDelete_untracked st ptr usable ((tfind_eq_none_iff _ _).mpr hnot),
    rfl, rfl, rfl, rfl, rfl⟩

theorem untracked_dealloc_noop_witness :
    sampleLive.table_ready = true ∧
    ∃ r, makeDelete sampleLive 4096 24 = some r ∧ r.state = sampleLive ∧
      r.state.allocationsTable = sampleLive.allocationsTable ∧
      r.state.pointersTable = sampleLive.pointersTable ∧
      r.reachedAssert = false ∧ r.freed = [4096] :=
  ⟨rfl, untracked_dealloc_noop sampleLive 4096 24 (by decide)⟩

/-- C9.  While the readiness flag is false, `operator new` returns the pointer of
the raw allocator and leaves the state unchanged, `makeDelete` calls `free` on its
argument, does not reach the table code and leaves the state unchanged, whatever
the tables hold, and `printTables` writes nothing.  The flag is false before
`initTables` and after `deinitTables`. -/
theorem not_ready_is_inert (hashImpl : List Char → Nat) (st : State) (ptr usable : Nat)
    (frames : List (List Char)) (junk : List Char) (hr : st.table_ready = false) :
    operatorNew hashImpl st ptr usable frames junk = some (st, ptr) ∧
    makeDelete st ptr usable
      = some { state := st, reachedAssert := false, freed := [ptr] } ∧
    printTables st = (st, []) ∧
    (∀ a p, (makeDelete { st with allocationsTable := a, pointersTable := p } ptr usable).map
      (fun r => (r.reachedAssert, r.freed)) = some (false, [ptr])) ∧
    startState.table_ready = false ∧
    ∀ s : State, (deinitTables s).table_ready = false := by
  refine ⟨operatorNew_not_ready hashImpl st ptr usable frames junk hr,
    makeDelete_not_ready st ptr usable hr, ?_, ?_, rfl, fun _ => rfl⟩
  · simp [printTables, hr]
  · intro a p
    rw [makeDelete_not_ready
      { table_ready := st.table_ready, allocationsTable := a, pointersTable := p,
        track := st.track } ptr usable hr]
    rfl

theorem not_ready_is_inert_witness :
    operatorNew sampleHash (deinitTables twoSites) 4096 24 siteA []
      = some (deinitTables twoSites, 4096) ∧
    makeDelete (deinitTables twoSites) 4096 24
      = some { state := deinitTables twoSites, reachedAssert := false, freed := [4096] } ∧
    printTables (deinitTables twoSites) = (deinitTables twoSites, []) ∧
    (∀ a p, (makeDelete { deinitTables twoSites with allocationsTable := a, pointersTable := p }
      4096 24).map (fun r => (r.reachedAssert, r.freed)) = some (false, [4096])) ∧
    startState.table_ready = false ∧
    ∀ s : State, (deinitTables s).table_ready = false :=
  not_ready_is_inert sampleHash (deinitTables twoSites) 4096 24 siteA [] rfl

/-! ## The report -/

theorem cstr_append_nul (t rest : List Char) (h : NUL ∉ t) :
    cstr (t ++ NUL :: rest) = t := by
  induction t with
  | nil => simp [cstr, List.takeWhile_cons]
  | cons c t ih =>
    have hc : c ≠ NUL := fun hh => h (hh ▸ List.mem_cons_self _ _)
    have ht : NUL ∉ t := fun hh => h (List.mem_cons_of_mem _ hh)
    have ih2 : List.takeWhile (fun c => c != NUL) (t ++ NUL :: rest) = t := ih ht
    simp [cstr, List.takeWhile_cons, hc, ih2]

theorem nul_not_mem_cstr (buf : List Char) : NUL ∉ cstr buf := by
  intro h
  have := List.mem_takeWhile_imp h
  simp at this

theorem cstr_of_no_nul (t : List Char) (h : NUL ∉ t) : cstr t = t := by
  have := cstr_append_nul t [] h
  unfold cstr at this ⊢
  rw [List.takeWhile_eq_self_iff]
  intro c hc
  have hne : c ≠ NUL := fun hh => h (hh ▸ hc)
  simpa using hne

theorem bufWrite_zero (buf data : List Char) :
    bufWrite buf 0 data = data ++ buf.drop data.length := by
  simp [bufWrite]

/-- A block whose stack text contains `%%` is not written as it is stored:
`printf(track)` reads the text as a format and prints a single `%`. -/
theorem printf_reads_format :
    emittedBlock { count := 1, alloc_size := 8, stack := "lib%%x.so(f+0x1)\n".toList }
      = some ("<TRACE> count: 1, allocated: 8\nlib%x.so(f+0x1)\n".toList) ∧
    emittedBlock { count := 1, alloc_size := 8, stack := "100%s(f+0x1)\n".toList } = none := by
  constructor <;> decide

theorem null_absent_alloc (hashImpl : List Char → Nat) (st : State) (ptr usable : Nat)
    (frames : List (List Char)) (junk : List Char) (h0 : 0 ∉ tkeys st.pointersTable)
    (hp : ptr ≠ 0) :
    0 ∉ tkeys (operatorNewBody hashImpl st ptr usable frames junk).1.pointersTable := by
  cases hr : st.table_ready with
  | false => rw [operatorNewBody_not_ready hashImpl st ptr usable frames junk hr]; exact h0
  | true =>
    rw [operatorNewBody_ready hashImpl st ptr usable frames junk hr]
    dsimp only
    rw [tkeys_tmodify, tkeys_tindex]
    split
    · exact h0
    · intro hm
      rcases List.mem_cons.mp hm with h1 | h1
      · exact hp h1.symm
      · exact h0 h1

theorem null_absent_dealloc (st : State) (ptr usable : Nat) (r : DeleteOutcome)
    (h0 : 0 ∉ tkeys st.pointersTable) (hdel : makeDelete st ptr usable = some r) :
    0 ∉ tkeys r.state.pointersTable := by
  cases hr : st.table_ready with
  | false =>
    rw [makeDelete_not_ready st ptr usable hr] at hdel
    rw [← Option.some.inj hdel]; exact h0
  | true =>
    cases hf : tfind ptr st.pointersTable with
    | none =>
      rw [makeDelete_untracked st ptr usable hf] at hdel
      rw [← Option.some.inj hdel]; exact h0
    | some k =>
      cases hrec : tfind k st.allocationsTable with
      | none =>
        rw [makeDelete_missing_record st ptr usable k hr hf hrec] at hdel
        exact absurd hdel (by simp)
      | some entry =>
        rw [makeDelete_tracked st ptr usable k entry hr hf hrec] at hdel
        rw [← Option.some.inj hdel]
        dsimp only
        rw [tkeys_terase]
        exact fun hm => h0 (List.mem_of_mem_filter hm)

theorem null_absent_run (hashImpl : List Char → Nat) (ops : List Op) :
    ∀ st st1 : State, 0 ∉ tkeys st.pointersTable →
      (∀ usable frames junk, Op.alloc 0 usable frames junk ∉ ops) →
      run hashImpl st ops = some st1 → 0 ∉ tkeys st1.pointersTable := by
  induction ops with
  | nil =>
    intro st st1 h0 _ hrun
    rw [← Option.some.inj hrun]; exact h0
  | cons op rest ih =>
    intro st st1 h0 hnn hrun
    have hrest : ∀ usable frames junk, Op.alloc 0 usable frames junk ∉ rest :=
      fun u f j hm => hnn u f j (List.mem_cons_of_mem _ hm)
    cases op with
    | alloc ptr usable frames junk =>
      have hp : ptr ≠ 0 := by
        intro hh
        exact hnn usable frames junk (hh ▸ List.mem_cons_self _ _)
      have hrun2 := (run_alloc_some hrun).2
      exact ih _ st1 (null_absent_alloc hashImpl st ptr usable frames junk h0 hp) hrest hrun2
    | dealloc ptr usable =>
      cases hdel : makeDelete st ptr usable with
      | none => simp [run, step, hdel] at hrun
      | some r =>
        have hrun2 : run hashImpl r.state rest = some st1 := by
          simpa [run, step, hdel] using hrun
        exact ih _ st1 (null_absent_dealloc st ptr usable r h0 hdel) hrest hrun2

set_option maxRecDepth 100000 in
/-- C10, counterexample.  `nullTracked` is the state reached from `initTables` by
one allocation whose `malloc` failed and returned null; there `makeDelete` of the
null pointer changes both tables (it removes the pointer entry and the record). -/
theorem null_dealloc_changes_tables :
    run sampleHash (initTables startState) [Op.alloc 0 0 siteA []] = some nullTracked ∧
    ∃ r, makeDelete nullTracked 0 0 = some r ∧
      r.state.allocationsTable ≠ nullTracked.allocationsTable ∧
      r.state.pointersTable ≠ nullTracked.pointersTable := by
  refine ⟨by decide, ⟨{ state := { table_ready := true, allocationsTable := [],
                                   pointersTable := [], track := stackA },
                        reachedAssert := true, freed := [0] },
    by decide, by decide, by decide⟩⟩

/-- C10, amended.  Take a run of fewer than `2 ^ 64` allocate / deallocate calls
from `initTables` in which no allocation returned the null pointer.  In every
state it reaches `makeDelete` of the null pointer succeeds and leaves the state,
hence the allocation table and the pointer table, unchanged.  The run reaches a
state when the formatted stack text of every allocation fits the arrays. -/
theorem null_dealloc_noop (hashImpl : List Char → Nat) (s0 : State) (ops : List Op)
    (hlen : ops.length < 2 ^ 64)
    (hnn : ∀ usable frames junk, Op.alloc 0 usable frames junk ∉ ops) :
    (opsFit ops = true → ∃ st, run hashImpl (initTables s0) ops = some st) ∧
    ∀ st, run hashImpl (initTables s0) ops = some st →
      ∀ usable, ∃ r, makeDelete st 0 usable = some r ∧ r.state = st ∧
        r.state.allocationsTable = st.allocationsTable ∧
        r.state.pointersTable = st.pointersTable := by
  have hlen2 : ops.length < u64 := by simpa [u64] using hlen
  refine ⟨run_of_fits hashImpl s0 ops hlen2, ?_⟩
  intro st hrun
  have h0 : 0 ∉ tkeys st.pointersTable :=
    null_absent_run hashImpl ops (initTables s0) st (by simp [initTables, tkeys]) hnn hrun
  exact fun usable => ⟨_, makeDelete_untracked st 0 usable
    ((tfind_eq_none_iff _ _).mpr h0), rfl, rfl, rfl⟩

set_option maxRecDepth 100000 in
theorem null_dealloc_noop_witness :
    ∃ st, run sampleHash (initTables startState)
        [Op.alloc 4096 24 siteA [], Op.dealloc 0 0, Op.alloc 8192 40 siteB [],
          Op.dealloc 4096 24] = some st ∧
      ∀ usable, ∃ r, makeDelete st 0 usable = some r ∧ r.state = st ∧
        r.state.allocationsTable = st.allocationsTable ∧
        r.state.pointersTable = st.pointersTable :=
  have h := null_dealloc_noop sampleHash startState
    [Op.alloc 4096 24 siteA [], Op.dealloc 0 0, Op.alloc 8192 40 siteB [], Op.dealloc 4096 24]
    (by decide) (by
      intro usable frames junk hm
      simp at hm)
  (h.1 (by decide)).elim (fun st hrun => ⟨st, hrun, h.2 st hrun⟩)

/-! ## A call stack that does not fit -/

theorem length_longName_line : (cstr longName ++ ['\n']).length = 3301 := by
  have hname : NUL ∉ longName := by
    intro hh
    have := (List.mem_replicate.mp hh).2
    revert this; decide
  rw [cstr_of_no_nul _ hname, List.length_append, List.length_singleton]
  unfold longName
  rw [List.length_replicate]

theorem snprintfEnd_longName (pos : Nat) :
    snprintfEnd pos kBufferSize (cstr longName ++ ['\n']) = pos + 3302 := by
  have hk : kBufferSize = 32768 := by decide
  unfold snprintfEnd
  rw [List.length_append, List.length_take, length_longName_line, List.length_singleton]
  omega

theorem formatTrack_longFrames_snd (track : List Char) :
    (formatTrack track 0 longFrames).2 = 33010 := by
  rw [formatTrack_snd]
  unfold longFrames
  rw [List.map_replicate, List.sum_replicate, length_longName_line]
  rfl

theorem inBounds_false_of_write (hashImpl : List Char → Nat) (st : State)
    (frames : List (List Char)) (e : Nat)
    (he : e ∈ trackWriteEnds 0 (frames.take kStackSize)) (hlt : kBufferSize + 1 < e) :
    inBounds hashImpl st frames = false := by
  have h1 : (trackWriteEnds 0 (frames.take kStackSize)).all
      (fun e => decide (e ≤ kBufferSize + 1)) = false := by
    rw [List.all_eq_false]
    exact ⟨e, he, by rw [decide_eq_true_eq]; omega⟩
  unfold inBounds
  dsimp only
  rw [h1]
  rfl

/-- C11, the code at a failing input.  For the ten frames `longFrames` (3300
bytes each) the last `snprintf` of the loop ends at offset 33011, past the
`kBufferSize + 1 = 32769` bytes of `track`; the final `pos` is 33010, not less
than `kBufferSize`; and the `pos + 1` bytes then copied make a stack text longer
than the `kBufferSize` bytes of the `stack` field.  The call of `operator new`
leaves the arrays and has no defined result. -/
theorem track_overflow_long_frames :
    longFrames.length ≤ kStackSize ∧
    (∃ e, e ∈ trackWriteEnds 0 (longFrames.take kStackSize) ∧ kBufferSize + 1 < e) ∧
    kBufferSize + 1 < (formatTrack [] 0 (longFrames.take kStackSize)).1.length ∧
    ¬ (formatTrack [] 0 (longFrames.take kStackSize)).2 < kBufferSize ∧
    kBufferSize < (recordAllocation (formatTrack [] 0 (longFrames.take kStackSize)).1
      (formatTrack [] 0 (longFrames.take kStackSize)).2 104 (AllocationDescription.init [])
      ).stack.length ∧
    operatorNew sampleHash (initTables startState) 4096 104 longFrames [] = none := by
  have hk : kBufferSize = 32768 := by decide
  have hlen : longFrames.length = 10 := List.length_replicate _ _
  have htake : longFrames.take kStackSize = longFrames :=
    List.take_of_length_le (by rw [hlen]; decide)
  have hmem : (0 + 9 * (cstr longName ++ ['\n']).length) + 3302
      ∈ trackWriteEnds 0 longFrames := by
    have := mem_trackWriteEnds_replicate longName 9 0
    rw [snprintfEnd_longName] at this
    exact this
  rw [length_longName_line] at hmem
  have hpos := formatTrack_longFrames_snd []
  have hnone : operatorNew sampleHash (initTables startState) 4096 104 longFrames [] = none :=
    operatorNew_eq_none _ _ _ _ _ _ rfl
      (inBounds_false_of_write _ _ _ _ (by rw [htake]; exact hmem) (by omega))
  rw [htake]
  refine ⟨by rw [hlen]; decide, ⟨_, hmem, by omega⟩, ?_, by omega, ?_, hnone⟩
  · have := writeEnd_le_length longFrames [] 0 _ hmem
    omega
  · have hinit : AllocationDescription.init []
        = { count := 0, alloc_size := 0, stack := [NUL] } := rfl
    rw [hinit]
    unfold recordAllocation
    dsimp only
    have h5 : bufGet [NUL] 0 = NUL := rfl
    rw [if_pos h5, length_bufWrite, length_bufRead, hpos]
    omega

/-! ## Life of a record -/

theorem tfind_tmodify_same {V : Type} (k : Nat) (f : V → V) (t : List (Nat × V)) :
    tfind k (tmodify k f t) = (tfind k t).map f := by
  induction t with
  | nil => rfl
  | cons e t ih =>
    have h1 : tmodify k f (e :: t)
        = (if e.1 = k then (e.1, f e.2) else e) :: tmodify k f t := rfl
    rw [h1, tfind_cons, tfind_cons]
    by_cases he : e.1 = k
    · simp [he]
    · simp [he, ih]

theorem tfind_terase_same {V : Type} (k : Nat) (t : List (Nat × V)) :
    tfind k (terase k t) = none :=
  (tfind_eq_none_iff _ _).mpr (not_mem_tkeys_terase k t)

/-- C13.  Take a run of fewer than `2 ^ 64` allocate / deallocate calls from
`initTables`.  In every state it reaches every record of the table has
`count ≥ 1`.  There `makeDelete` of a tracked pointer finds its record with
`count ≥ 1`, so the decrement does not wrap (the new count is `count - 1`); the
record is removed exactly when the new count is zero, and is kept with the new
count otherwise.  The run reaches a state when the formatted stack text of every
allocation fits the arrays. -/
theorem record_has_live_allocations (hashImpl : List Char → Nat) (s0 : State)
    (ops : List Op) (hlen : ops.length < 2 ^ 64) :
    (opsFit ops = true → ∃ st, run hashImpl (initTables s0) ops = some st) ∧
    ∀ st, run hashImpl (initTables s0) ops = some st →
      (∀ h d, (h, d) ∈ st.allocationsTable → 1 ≤ d.count) ∧
      ∀ ptr usable h, tfind ptr st.pointersTable = some h →
        ∃ entry r, tfind h st.allocationsTable = some entry ∧ 1 ≤ entry.count ∧
          (recordDeallocation usable entry).count = entry.count - 1 ∧
          makeDelete st ptr usable = some r ∧
          (entry.count - 1 = 0 → tfind h r.state.allocationsTable = none) ∧
          (entry.count - 1 ≠ 0 → ∃ d, tfind h r.state.allocationsTable = some d ∧
            d.count = entry.count - 1) := by
  have hlen2 : ops.length < u64 := by simpa [u64] using hlen
  refine ⟨run_of_fits hashImpl s0 ops hlen2, ?_⟩
  intro st hrun
  have hc := consistent_of_run hashImpl ops 0 (initTables s0) st (consistent_init s0)
    (by omega) hrun
  refine ⟨fun h d hd => (hc.counts h d hd).2.1, ?_⟩
  intro ptr usable h hf
  have hkey : h ∈ tkeys st.allocationsTable := hc.owner ptr h (mem_of_tfind hf)
  cases hrec : tfind h st.allocationsTable with
  | none => exact absurd hkey ((tfind_eq_none_iff _ _).mp hrec)
  | some entry =>
    have hent := hc.counts h entry (mem_of_tfind hrec)
    have hcnt : (recordDeallocation usable entry).count = entry.count - 1 :=
      recordDeallocation_count usable entry hent.2.1 (by omega)
    refine ⟨entry, _, rfl, hent.2.1, hcnt,
      makeDelete_tracked st ptr usable h entry hc.ready hf hrec, ?_, ?_⟩
    · intro hz
      dsimp only
      rw [if_pos (hcnt.trans hz)]
      exact tfind_terase_same _ _
    · intro hz
      dsimp only
      rw [if_neg (fun hh => hz (hcnt.symm.trans hh)), tfind_tmodify_same, hrec]
      exact ⟨_, rfl, hcnt⟩

set_option maxRecDepth 100000 in
theorem record_has_live_allocations_witness :
    ∃ st, run sampleHash (initTables startState)
        [Op.alloc 4096 24 siteA [], Op.alloc 8192 40 siteA [], Op.alloc 4096 24 siteB [],
          Op.dealloc 8192 40] = some st ∧
      (∀ h d, (h, d) ∈ st.allocationsTable → 1 ≤ d.count) ∧
      ∀ ptr usable h, tfind ptr st.pointersTable = some h →
        ∃ entry r, tfind h st.allocationsTable = some entry ∧ 1 ≤ entry.count ∧
          (recordDeallocation usable entry).count = entry.count - 1 ∧
          makeDelete st ptr usable = some r ∧
          (entry.count - 1 = 0 → tfind h r.state.allocationsTable = none) ∧
          (entry.count - 1 ≠ 0 → ∃ d, tfind h r.state.allocationsTable = some d ∧
            d.count = entry.count - 1) :=
  have h := record_has_live_allocations sampleHash startState
    [Op.alloc 4096 24 siteA [], Op.alloc 8192 40 siteA [], Op.alloc 4096 24 siteB [],
      Op.dealloc 8192 40] (by decide)
  (h.1 (by decide)).elim (fun st hrun => ⟨st, hrun, h.2 st hrun⟩)

/-! ## Transparency of the hooks -/

set_option maxRecDepth 100000 in
/-- C14, counterexample.  In the ready state `danglingState` the pointer 4096 is
tracked but its record is missing: `makeDelete` fails the assertion and stops
before `free` is called. -/
theorem dangling_pointer_not_freed :
    danglingState.table_ready = true ∧
    tfind 4096 danglingState.pointersTable = some hashA ∧
    tfind hashA danglingState.allocationsTable = none ∧
    makeDelete danglingState 4096 24 = none := by
  refine ⟨rfl, by decide, by decide, by decide⟩

/-- C14, amended.  In every state, ready or not, whenever `operator new` returns
it returns exactly the pointer of the raw allocator, and it returns when the
engine is not ready or the formatted stack text of the call fits the arrays;
`makeDelete` calls `free` on its argument exactly once whenever it returns at
all, and it returns whenever the engine is not ready, the pointer is not tracked,
or the record of the tracked pointer is in the allocation table (as in every
reachable state). -/
theorem hooks_are_transparent (hashImpl : List Char → Nat) (st : State)
    (ptr usable : Nat) (frames : List (List Char)) (junk : List Char)
    (hrec : st.table_ready = true → ∀ h, tfind ptr st.pointersTable = some h →
      tfind h st.allocationsTable ≠ none) :
    ((st.table_ready = true → stackFits frames = true) →
      ∃ st1, operatorNew hashImpl st ptr usable frames junk = some (st1, ptr)) ∧
    (∀ r, operatorNew hashImpl st ptr usable frames junk = some r → r.2 = ptr) ∧
    (∃ r, makeDelete st ptr usable = some r ∧ r.freed = [ptr]) ∧
    ∀ r, makeDelete st ptr usable = some r → r.freed = [ptr] := by
  have hex : ∃ r, makeDelete st ptr usable = some r ∧ r.freed = [ptr] := by
    cases hr : st.table_ready with
    | false => exact ⟨_, makeDelete_not_ready st ptr usable hr, rfl⟩
    | true =>
      cases hf : tfind ptr st.pointersTable with
      | none => exact ⟨_, makeDelete_untracked st ptr usable hf, rfl⟩
      | some h =>
        cases hfr : tfind h st.allocationsTable with
        | none => exact absurd hfr (hrec hr h hf)
        | some entry => exact ⟨_, makeDelete_tracked st ptr usable h entry hr hf hfr, rfl⟩
  have hnew : (st.table_ready = true → stackFits frames = true) →
      ∃ st1, operatorNew hashImpl st ptr usable frames junk = some (st1, ptr) := by
    intro hfit
    cases hr : st.table_ready with
    | false => exact ⟨st, operatorNew_not_ready hashImpl st ptr usable frames junk hr⟩
    | true =>
      refine ⟨(operatorNewBody hashImpl st ptr usable frames junk).1, ?_⟩
      rw [operatorNew_of_fits hashImpl st ptr usable frames junk (hfit hr)]
      exact congrArg some (Prod.ext rfl (operatorNewBody_snd _ _ _ _ _ _))
  refine ⟨hnew, ?_, hex, ?_⟩
  · intro r hr
    rw [operatorNew_some hr]
    exact operatorNewBody_snd _ _ _ _ _ _
  · intro r hr
    obtain ⟨r1, h1, h2⟩ := hex
    rw [h1] at hr
    rw [← Option.some.inj hr]
    exact h2

set_option maxRecDepth 100000 in
theorem hooks_are_transparent_witness :
    (∃ st1, operatorNew sampleHash twoSites 8192 40 siteB [] = some (st1, 8192)) ∧
    (∀ r, operatorNew sampleHash twoSites 8192 40 siteB [] = some r → r.2 = 8192) ∧
    (∃ r, makeDelete twoSites 8192 40 = some r ∧ r.freed = [8192]) ∧
    ∀ r, makeDelete twoSites 8192 40 = some r → r.freed = [8192] :=
  have h := hooks_are_transparent sampleHash twoSites 8192 40 siteB []
    (fun _ h hf => by
      have : h = hashB := by
        have h1 : tfind 8192 twoSites.pointersTable = some hashB := by decide
        rw [h1] at hf
        exact (Option.some.inj hf).symm
      rw [this]
      decide)
  ⟨h.1 (fun _ => by decide), h.2⟩

/-! ## The report is read-only -/

theorem bufGet_bufWrite_lt (buf : List Char) (off : Nat) (data : List Char) (i : Nat)
    (hi : i < off) : bufGet (bufWrite buf off data) i = bufGet buf i := by
  have hlen : ((buf ++ List.replicate (off - buf.length) NUL).take off).length = off := by
    rw [List.length_take, List.length_append, List.length_replicate]
    omega
  unfold bufGet bufWrite
  rw [List.getD_eq_getElem?_getD, List.getD_eq_getElem?_getD, List.append_assoc,
    List.getElem?_append_left (by rw [hlen]; exact hi), List.getElem?_take_of_lt hi]
  by_cases hb : i < buf.length
  · rw [List.getElem?_append_left hb]
  · have hb2 : buf.length ≤ i := Nat.le_of_not_lt hb
    rw [List.getElem?_append_right hb2, List.getElem?_replicate_of_lt (by omega),
      List.getElem?_eq_none hb2]
    rfl

theorem bufGet_bufWrite_zero (buf : List Char) (c : Char) (data : List Char) :
    bufGet (bufWrite buf 0 (c :: data)) 0 = c := by
  rw [bufWrite_zero]
  rfl

theorem bufGet_formatTrack_lt (names : List (List Char)) :
    ∀ (track : List Char) (pos i : Nat), i < pos →
      bufGet (formatTrack track pos names).1 i = bufGet track i := by
  induction names with
  | nil => intro track pos i _; rfl
  | cons name rest ih =>
    intro track pos i hi
    rw [formatTrack_cons, ih _ _ i (by omega)]
    exact bufGet_bufWrite_lt _ _ _ _ hi

/-- After the loop has formatted at least one frame, the first byte of `track` is
not `NUL`: the formatted stack text is not empty. -/
theorem bufGet_formatTrack_first (track : List Char) (name : List Char)
    (rest : List (List Char)) :
    bufGet (formatTrack track 0 (name :: rest)).1 0 ≠ NUL := by
  have hk : kBufferSize - 1 = 32766 + 1 := by decide
  have hline : ∃ c tl, cstr name ++ ['\n'] = c :: tl ∧ c ≠ NUL := by
    cases hn : cstr name with
    | nil => exact ⟨'\n', [], rfl, by decide⟩
    | cons c tl =>
      refine ⟨c, tl ++ ['\n'], rfl, ?_⟩
      intro hc
      have : NUL ∉ cstr name := nul_not_mem_cstr name
      rw [hn, ← hc] at this
      exact this (List.mem_cons_self _ _)
  obtain ⟨c, tl, hl, hc⟩ := hline
  have hpos : 0 < 0 + (cstr name ++ ['\n']).length := by
    rw [hl]; simp
  rw [formatTrack_cons, bufGet_formatTrack_lt rest _ _ 0 hpos]
  unfold snprintf
  rw [hl, hk, List.take_succ_cons, List.cons_append, bufGet_bufWrite_zero]
  exact hc

theorem recordAllocation_stack_of_populated (track : List Char) (pos usable : Nat)
    (entry : AllocationDescription) (h : bufGet entry.stack 0 ≠ NUL) :
    (recordAllocation track pos usable entry).stack = entry.stack := by
  unfold recordAllocation
  dsimp only
  rw [if_neg h]

theorem recordAllocation_populated (track : List Char) (pos usable : Nat)
    (entry : AllocationDescription) (h : bufGet track 0 ≠ NUL) :
    bufGet (recordAllocation track pos usable entry).stack 0 ≠ NUL := by
  by_cases he : bufGet entry.stack 0 = NUL
  · unfold recordAllocation
    dsimp only
    rw [if_pos he]
    have : bufRead track 0 (pos + 1)
        = bufGet track (0 + 0) :: (List.map Nat.succ (List.range pos)).map
            (fun i => bufGet track (0 + i)) := by
      unfold bufRead
      rw [List.range_succ_eq_map, List.map_cons]
    rw [this, bufGet_bufWrite_zero]
    exact h
  · rw [recordAllocation_stack_of_populated _ _ _ _ he]
    exact he

/-! ## The text written into a record -/

theorem bufGet_bufWrite_mid (buf : List Char) (off : Nat) (data : List Char) (i : Nat)
    (h1 : off ≤ i) (h2 : i < off + data.length) :
    bufGet (bufWrite buf off data) i = data.getD (i - off) NUL := by
  have hlen : ((buf ++ List.replicate (off - buf.length) NUL).take off).length = off := by
    rw [List.length_take, List.length_append, List.length_replicate]
    omega
  unfold bufGet bufWrite
  rw [List.getD_eq_getElem?_getD, List.getD_eq_getElem?_getD, List.append_assoc,
    List.getElem?_append_right (by rw [hlen]; exact h1), hlen,
    List.getElem?_append_left (by omega)]

theorem bufRead_succ (buf : List Char) (off n : Nat) :
    bufRead buf off (n + 1) = bufRead buf off n ++ [bufGet buf (off + n)] := by
  unfold bufRead
  rw [List.range_succ, List.map_append, List.map_singleton]

theorem bufRead_add (buf : List Char) (off m n : Nat) :
    bufRead buf off (m + n) = bufRead buf off m ++ bufRead buf (off + m) n := by
  induction n with
  | zero => simp [bufRead]
  | succ n ih =>
    rw [← Nat.add_assoc, bufRead_succ, ih, bufRead_succ, List.append_assoc, Nat.add_assoc]

theorem bufRead_congr (a b : List Char) (off n : Nat)
    (h : ∀ i, i < n → bufGet a (off + i) = bufGet b (off + i)) :
    bufRead a off n = bufRead b off n := by
  unfold bufRead
  apply List.map_congr_left
  intro i hi
  exact h i (List.mem_range.mp hi)

theorem bufRead_bufWrite_same (buf : List Char) (off : Nat) (d t : List Char) :
    bufRead (bufWrite buf off (d ++ t)) off d.length = d := by
  apply List.ext_getElem
  · rw [length_bufRead]
  · intro i h1 h2
    unfold bufRead
    rw [List.getElem_map, List.getElem_range,
      bufGet_bufWrite_mid _ _ _ _ (by omega) (by rw [List.length_append]; omega),
      Nat.add_sub_cancel_left, List.getD_eq_getElem?_getD, List.getElem?_append_left h2,
      List.getElem?_eq_getElem h2]
    rfl

theorem bufGet_bufWrite_end (buf : List Char) (off : Nat) (d : List Char) (c : Char) :
    bufGet (bufWrite buf off (d ++ [c])) (off + d.length) = c := by
  rw [bufGet_bufWrite_mid _ _ _ _ (by omega) (by rw [List.length_append]; simp),
    Nat.add_sub_cancel_left, List.getD_eq_getElem?_getD,
    List.getElem?_append_right (Nat.le_refl _)]
  simp

theorem linesText_cons (name : List Char) (rest : List (List Char)) :
    linesText (name :: rest) = cstr name ++ ['\n'] ++ linesText rest := rfl

theorem length_linesText (names : List (List Char)) :
    (linesText names).length = (names.map (fun n => (cstr n ++ ['\n']).length)).sum := by
  induction names with
  | nil => rfl
  | cons name rest ih =>
    rw [linesText_cons, List.length_append, ih, List.map_cons, List.sum_cons]

theorem nul_not_mem_linesText (names : List (List Char)) : NUL ∉ linesText names := by
  induction names with
  | nil => simp [linesText]
  | cons name rest ih =>
    rw [linesText_cons]
    intro h
    rcases List.mem_append.mp h with h1 | h1
    · rcases List.mem_append.mp h1 with h2 | h2
      · exact nul_not_mem_cstr name h2
      · revert h2; decide
    · exact ih h1

/-- When no line is cut, the loop leaves the lines one after the other at `pos`,
followed by a `NUL`. -/
theorem formatTrack_text (names : List (List Char)) :
    ∀ (track : List Char) (pos : Nat),
      (∀ n, n ∈ names → (cstr n ++ ['\n']).length ≤ kBufferSize - 1) →
      bufRead (formatTrack track pos names).1 pos (linesText names).length = linesText names ∧
      (names ≠ [] →
        bufGet (formatTrack track pos names).1 (pos + (linesText names).length) = NUL) := by
  induction names with
  | nil =>
    intro track pos _
    exact ⟨rfl, fun h => absurd rfl h⟩
  | cons name rest ih =>
    intro track pos hcut
    have hline : (cstr name ++ ['\n']).take (kBufferSize - 1) = cstr name ++ ['\n'] :=
      List.take_of_length_le (hcut name (List.mem_cons_self _ _))
    have hw : (snprintf track pos kBufferSize (cstr name ++ ['\n'])).1
        = bufWrite track pos ((cstr name ++ ['\n']) ++ [NUL]) := by
      unfold snprintf
      rw [hline]
    obtain ⟨ih1, ih2⟩ := ih (snprintf track pos kBufferSize (cstr name ++ ['\n'])).1
      (pos + (cstr name ++ ['\n']).length) (fun n hn => hcut n (List.mem_cons_of_mem _ hn))
    have hlen : (cstr name ++ ['\n'] ++ linesText rest).length
        = (cstr name ++ ['\n']).length + (linesText rest).length := List.length_append _ _
    rw [formatTrack_cons, linesText_cons, hlen]
    constructor
    · rw [bufRead_add, ih1]
      congr 1
      rw [bufRead_congr _ (snprintf track pos kBufferSize (cstr name ++ ['\n'])).1 pos _
        (fun i hi => bufGet_formatTrack_lt rest _ _ _ (by omega)), hw]
      exact bufRead_bufWrite_same _ _ _ _
    · intro _
      by_cases hr : rest = []
      · subst hr
        rw [hw]
        show bufGet (bufWrite track pos ((cstr name ++ ['\n']) ++ [NUL]))
          (pos + ((cstr name ++ ['\n']).length + 0)) = NUL
        rw [Nat.add_zero]
        exact bufGet_bufWrite_end _ _ _ _
      · rw [← Nat.add_assoc]
        exact ih2 hr

theorem line_le_of_fits (frames : List (List Char)) (hfit : stackFits frames = true) :
    ∀ n, n ∈ frames.take kStackSize → (cstr n ++ ['\n']).length ≤ kBufferSize - 1 := by
  intro n hn
  have hlt : textLength frames < kBufferSize := (stackFits_iff frames).mp hfit
  have hle : (cstr n ++ ['\n']).length
      ≤ ((frames.take kStackSize).map (fun n => (cstr n ++ ['\n']).length)).sum :=
    List.single_le_sum (fun _ _ => Nat.zero_le _) _ (List.mem_map.mpr ⟨n, hn, rfl⟩)
  have : ((frames.take kStackSize).map (fun n => (cstr n ++ ['\n']).length)).sum
      = textLength frames := rfl
  omega

theorem length_formattedText (frames : List (List Char)) :
    (formattedText frames).length = textLength frames :=
  length_linesText _

/-- When the text fits, the text hashed by `operator new` is the sequence of the
lines of the frames, whatever `track` held before. -/
theorem stackText_of_fits (track : List Char) (frames : List (List Char))
    (hfit : stackFits frames = true) : stackText track frames = formattedText frames := by
  have h := (formatTrack_text (frames.take kStackSize) track 0 (line_le_of_fits frames hfit)).1
  unfold stackText
  dsimp only
  rw [formatTrack_pos, ← length_formattedText]
  exact h


theorem take_kStackSize_ne_nil (frames : List (List Char)) (hne : frames ≠ []) :
    frames.take kStackSize ≠ [] := by
  cases frames with
  | nil => exact absurd rfl hne
  | cons name rest =>
    have : (name :: rest).take kStackSize = name :: rest.take 9 := rfl
    rw [this]
    exact List.cons_ne_nil _ _

/-- The copy into a record whose `stack[0]` is zero, when the text fits and at
least one frame was captured: the record holds the formatted text, its `NUL`, and
behind them the bytes it held before. -/
theorem recordAllocation_new_stack (track : List Char) (frames : List (List Char))
    (usable : Nat) (entry : AllocationDescription) (hfit : stackFits frames = true)
    (hne : frames ≠ []) (hz : bufGet entry.stack 0 = NUL) :
    (recordAllocation (formatTrack track 0 (frames.take kStackSize)).1
      (formatTrack track 0 (frames.take kStackSize)).2 usable entry).stack
      = formattedText frames ++ NUL :: entry.stack.drop (textLength frames + 1) := by
  obtain ⟨h1, h2⟩ := formatTrack_text (frames.take kStackSize) track 0
    (line_le_of_fits frames hfit)
  have h3 := h2 (take_kStackSize_ne_nil frames hne)
  have hlen : (linesText (frames.take kStackSize)).length = textLength frames :=
    length_linesText _
  have htext : linesText (frames.take kStackSize) = formattedText frames := rfl
  rw [Nat.zero_add, hlen] at h3
  rw [hlen, htext] at h1
  unfold recordAllocation
  dsimp only
  rw [if_pos hz, formatTrack_pos, bufRead_succ, h1, Nat.zero_add, h3, bufWrite_zero,
    List.length_append, List.length_singleton, length_formattedText, List.append_assoc,
    List.singleton_append]

theorem cstr_new_stack (track : List Char) (frames : List (List Char))
    (usable : Nat) (entry : AllocationDescription) (hfit : stackFits frames = true)
    (hne : frames ≠ []) (hz : bufGet entry.stack 0 = NUL) :
    cstr (recordAllocation (formatTrack track 0 (frames.take kStackSize)).1
      (formatTrack track 0 (frames.take kStackSize)).2 usable entry).stack
      = formattedText frames := by
  rw [recordAllocation_new_stack track frames usable entry hfit hne hz]
  exact cstr_append_nul _ _ (nul_not_mem_linesText _)

theorem bufGet_init (junk : List Char) : bufGet (AllocationDescription.init junk).stack 0 = NUL :=
  rfl

theorem bufGet_track_first (track : List Char) (frames : List (List Char))
    (hne : frames ≠ []) :
    bufGet (formatTrack track 0 (frames.take kStackSize)).1 0 ≠ NUL := by
  cases frames with
  | nil => exact absurd rfl hne
  | cons name rest =>
    have : (name :: rest).take kStackSize = name :: rest.take 9 := rfl
    rw [this]
    exact bufGet_formatTrack_first _ _ _

/-- An allocation that captured at least one frame keeps the invariant "every
record holds a non-empty text whose hash is the key of the record". -/
theorem described_alloc (hashImpl : List Char → Nat) (st : State) (ptr usable : Nat)
    (frames : List (List Char)) (junk : List Char) (hne : frames ≠ [])
    (h : ∀ k d, (k, d) ∈ st.allocationsTable →
      bufGet d.stack 0 ≠ NUL ∧ hashImpl (cstr d.stack) = k)
    (hnew : operatorNew hashImpl st ptr usable frames junk
      = some (operatorNewBody hashImpl st ptr usable frames junk)) :
    ∀ k d, (k, d) ∈ (operatorNewBody hashImpl st ptr usable frames junk).1.allocationsTable →
      bufGet d.stack 0 ≠ NUL ∧ hashImpl (cstr d.stack) = k := by
  cases hr : st.table_ready with
  | false => rw [operatorNewBody_not_ready hashImpl st ptr usable frames junk hr]; exact h
  | true =>
    rw [operatorNewBody_ready hashImpl st ptr usable frames junk hr]
    dsimp only
    have htrack := bufGet_track_first st.track frames hne
    intro k d hm
    rcases mem_tmodify_tindex.mp hm with ⟨_, hd⟩ | ⟨hk, ⟨v, hv, hd⟩ | ⟨hno, hd⟩⟩
    · exact h k d hd
    · have hv2 := h _ v hv
      rw [hd, recordAllocation_stack_of_populated _ _ _ _ hv2.1, hk]
      exact hv2
    · have hrec : tfind (stackHash hashImpl st.track frames) st.allocationsTable = none :=
        (tfind_eq_none_iff _ _).mpr hno
      have hfit : stackFits frames = true := fits_of_new_record hr hrec hnew
      refine ⟨by rw [hd]; exact recordAllocation_populated _ _ _ _ htrack, ?_⟩
      rw [hd, cstr_new_stack st.track frames usable _ hfit hne (bufGet_init junk), hk]
      unfold stackHash
      rw [stackText_of_fits st.track frames hfit]

theorem stack_kept_by_dealloc (st : State) (ptr usable : Nat) (r : DeleteOutcome)
    (hdel : makeDelete st ptr usable = some r) :
    ∀ k d1, (k, d1) ∈ r.state.allocationsTable →
      ∃ d, (k, d) ∈ st.allocationsTable ∧ d1.stack = d.stack := by
  cases hr : st.table_ready with
  | false =>
    rw [makeDelete_not_ready st ptr usable hr] at hdel
    rw [← Option.some.inj hdel]
    exact fun k d1 hm => ⟨d1, hm, rfl⟩
  | true =>
    cases hf : tfind ptr st.pointersTable with
    | none =>
      rw [makeDelete_untracked st ptr usable hf] at hdel
      rw [← Option.some.inj hdel]
      exact fun k d1 hm => ⟨d1, hm, rfl⟩
    | some h =>
      cases hrec : tfind h st.allocationsTable with
      | none =>
        rw [makeDelete_missing_record st ptr usable h hr hf hrec] at hdel
        exact absurd hdel (by simp)
      | some entry =>
        rw [makeDelete_tracked st ptr usable h entry hr hf hrec] at hdel
        rw [← Option.some.inj hdel]
        dsimp only
        intro k d1 hm
        have hm2 : (k, d1) ∈ tmodify h (recordDeallocation usable) st.allocationsTable := by
          split at hm
          · exact (mem_terase.mp hm).1
          · exact hm
        rcases mem_tmodify.mp hm2 with ⟨_, hd⟩ | ⟨hk, v, hv, hd⟩
        · exact ⟨d1, hd, rfl⟩
        · exact ⟨v, hk ▸ hv, by rw [hd]; rfl⟩

theorem described_run (hashImpl : List Char → Nat) (ops : List Op) :
    ∀ st st1 : State,
      (∀ k d, (k, d) ∈ st.allocationsTable →
        bufGet d.stack 0 ≠ NUL ∧ hashImpl (cstr d.stack) = k) →
      (∀ ptr usable frames junk, Op.alloc ptr usable frames junk ∈ ops → frames ≠ []) →
      run hashImpl st ops = some st1 →
      ∀ k d, (k, d) ∈ st1.allocationsTable →
        bufGet d.stack 0 ≠ NUL ∧ hashImpl (cstr d.stack) = k := by
  induction ops with
  | nil =>
    intro st st1 h _ hrun
    rw [← Option.some.inj hrun]; exact h
  | cons op rest ih =>
    intro st st1 h hfr hrun
    have hrest : ∀ ptr usable frames junk, Op.alloc ptr usable frames junk ∈ rest →
        frames ≠ [] :=
      fun p u f j hm => hfr p u f j (List.mem_cons_of_mem _ hm)
    cases op with
    | alloc ptr usable frames junk =>
      have hne : frames ≠ [] := hfr ptr usable frames junk (List.mem_cons_self _ _)
      obtain ⟨hnew, hrun2⟩ := run_alloc_some hrun
      exact ih _ st1 (described_alloc hashImpl st ptr usable frames junk hne h hnew) hrest hrun2
    | dealloc ptr usable =>
      cases hdel : makeDelete st ptr usable with
      | none => simp [run, step, hdel] at hrun
      | some r =>
        have hrun2 : run hashImpl r.state rest = some st1 := by
          simpa [run, step, hdel] using hrun
        refine ih _ st1 ?_ hrest hrun2
        intro k d1 hm
        obtain ⟨d, hd, hs⟩ := stack_kept_by_dealloc st ptr usable r hdel k d1 hm
        rw [hs]; exact h k d hd

theorem makeDelete_ready (st : State) (ptr usable : Nat) (r : DeleteOutcome)
    (hdel : makeDelete st ptr usable = some r) : r.state.table_ready = st.table_ready := by
  cases hr : st.table_ready with
  | false =>
    rw [makeDelete_not_ready st ptr usable hr] at hdel
    rw [← Option.some.inj hdel]; exact hr
  | true =>
    cases hf : tfind ptr st.pointersTable with
    | none =>
      rw [makeDelete_untracked st ptr usable hf] at hdel
      rw [← Option.some.inj hdel]; exact hr
    | some h =>
      cases hrec : tfind h st.allocationsTable with
      | none =>
        rw [makeDelete_missing_record st ptr usable h hr hf hrec] at hdel
        exact absurd hdel (by simp)
      | some entry =>
        rw [makeDelete_tracked st ptr usable h entry hr hf hrec] at hdel
        rw [← Option.some.inj hdel]
        exact hr

theorem ready_run (hashImpl : List Char → Nat) (ops : List Op) :
    ∀ st st1 : State, st.table_ready = true → run hashImpl st ops = some st1 →
      st1.table_ready = true := by
  induction ops with
  | nil =>
    intro st st1 h hrun
    rw [← Option.some.inj hrun]; exact h
  | cons op rest ih =>
    intro st st1 h hrun
    cases op with
    | alloc ptr usable frames junk =>
      have hrun2 := (run_alloc_some hrun).2
      refine ih _ st1 ?_ hrun2
      rw [operatorNewBody_ready hashImpl st ptr usable frames junk h]
    | dealloc ptr usable =>
      cases hdel : makeDelete st ptr usable with
      | none => simp [run, step, hdel] at hrun
      | some r =>
        have hrun2 : run hashImpl r.state rest = some st1 := by
          simpa [run, step, hdel] using hrun
        exact ih _ st1 ((makeDelete_ready st ptr usable r hdel).trans h) hrun2

/-! ## The stack text of a record -/

set_option maxRecDepth 100000 in
/-- C12, counterexample.  `emptyTextState` is reached from `initTables` by an
allocation that captured no frame, followed by an allocation at site `A`.  Its
record under the hash of the empty text holds the empty stack text captured when
it was created.  A further allocation that captures no frame hashes to the same
key and rewrites the first byte of the stack text of that record with `'a'`, the
first byte left in `track` by the allocation at site `A`: the text, empty when
it was captured, is not empty any more.  (The bytes of the record after the first
one were never written; they are zero in this run and the text becomes `"a"`.) -/
theorem empty_stack_text_rewritten :
    run sampleHash (initTables startState) [Op.alloc 4096 24 [] [], Op.alloc 8192 40 siteA []]
      = some emptyTextState ∧
    tfind (sampleHash []) emptyTextState.allocationsTable
      = some { count := 1, alloc_size := 24, stack := [NUL] } ∧
    stackHash sampleHash emptyTextState.track [] = sampleHash [] ∧
    (∃ st1, operatorNew sampleHash emptyTextState 12288 24 [] [] = some (st1, 12288) ∧
      tfind (sampleHash []) st1.allocationsTable
        = some { count := 2, alloc_size := 48, stack := ['a'] }) ∧
    bufGet ['a'] 0 ≠ NUL ∧
    cstr ['a'] ≠ cstr [NUL] := by
  refine ⟨by decide, by decide, by decide, ⟨(operatorNewBody sampleHash emptyTextState
    12288 24 [] []).1, by decide, by decide⟩, by decide, by decide⟩

/-- C12, amended.  Let a state be reached from `initTables` by allocations that
each captured at least one frame and by deallocations.  Every record of it holds
a non-empty stack text, and the hash of that text is the key of the record.  An
allocation with at least one frame whose text fits the arrays and whose hash has
no record creates the record with exactly the text it formatted, the lines of its
frames.  A further allocation whose stack hashes to the key of a record (with the
same text or a colliding one, with or without frames) completes when its text
fits the arrays, and whenever it completes it leaves the stack text of that
record as it is; `makeDelete` leaves the stack text of every record it keeps as
it is. -/
theorem stack_text_written_once (hashImpl : List Char → Nat) (s0 : State) (ops : List Op)
    (st : State)
    (hframes : ∀ ptr usable frames junk, Op.alloc ptr usable frames junk ∈ ops → frames ≠ [])
    (hrun : run hashImpl (initTables s0) ops = some st) :
    (∀ h d, (h, d) ∈ st.allocationsTable →
      bufGet d.stack 0 ≠ NUL ∧ hashImpl (cstr d.stack) = h) ∧
    (∀ ptr usable frames junk, frames ≠ [] → stackFits frames = true →
      tfind (stackHash hashImpl st.track frames) st.allocationsTable = none →
      ∃ st1 d1, operatorNew hashImpl st ptr usable frames junk = some (st1, ptr) ∧
        tfind (stackHash hashImpl st.track frames) st1.allocationsTable = some d1 ∧
        stackText st.track frames = formattedText frames ∧
        cstr d1.stack = formattedText frames ∧
        d1.stack = formattedText frames
          ++ NUL :: (junk.take (kBufferSize - 1)).drop (textLength frames)) ∧
    (∀ ptr usable frames junk d,
      tfind (stackHash hashImpl st.track frames) st.allocationsTable = some d →
      (stackFits frames = true →
        ∃ r, operatorNew hashImpl st ptr usable frames junk = some r) ∧
      ∀ r, operatorNew hashImpl st ptr usable frames junk = some r →
        ∃ d1, tfind (stackHash hashImpl st.track frames) r.1.allocationsTable = some d1 ∧
          d1.stack = d.stack) ∧
    (∀ ptr usable r, makeDelete st ptr usable = some r →
      ∀ k d1, (k, d1) ∈ r.state.allocationsTable →
        ∃ d, (k, d) ∈ st.allocationsTable ∧ d1.stack = d.stack) := by
  have hdesc := described_run hashImpl ops (initTables s0) st
    (fun k d hm => by simp [initTables] at hm) hframes hrun
  have hready : st.table_ready = true := ready_run hashImpl ops (initTables s0) st rfl hrun
  refine ⟨hdesc, ?_, ?_, fun ptr usable r hdel => stack_kept_by_dealloc st ptr usable r hdel⟩
  · intro ptr usable frames junk hne hfit hrec
    have hk : stackHash hashImpl st.track frames ∉ tkeys st.allocationsTable :=
      (tfind_eq_none_iff _ _).mp hrec
    have hidx : tindex (stackHash hashImpl st.track frames) (AllocationDescription.init junk)
        st.allocationsTable
        = (stackHash hashImpl st.track frames, AllocationDescription.init junk)
            :: st.allocationsTable := by
      unfold tindex; rw [hrec]; rfl
    have hstack := recordAllocation_new_stack st.track frames usable
      (AllocationDescription.init junk) hfit hne (bufGet_init junk)
    refine ⟨(operatorNewBody hashImpl st ptr usable frames junk).1, _, ?_, ?_,
      stackText_of_fits st.track frames hfit,
      cstr_new_stack st.track frames usable _ hfit hne (bufGet_init junk), ?_⟩
    · rw [operatorNew_of_fits hashImpl st ptr usable frames junk hfit]
      exact congrArg some (Prod.ext rfl (operatorNewBody_snd _ _ _ _ _ _))
    · rw [operatorNewBody_ready hashImpl st ptr usable frames junk hready]
      dsimp only
      rw [tfind_tmodify_same, hidx, tfind_cons, if_pos rfl]
      rfl
    · rw [hstack]
      rfl
  · intro ptr usable frames junk d hd
    refine ⟨fun hfit => ⟨_, operatorNew_of_fits hashImpl st ptr usable frames junk hfit⟩, ?_⟩
    intro r hnew
    rw [operatorNew_some hnew, operatorNewBody_ready hashImpl st ptr usable frames junk hready]
    dsimp only
    have hidx : tindex (stackHash hashImpl st.track frames) (AllocationDescription.init junk)
        st.allocationsTable = st.allocationsTable := by
      unfold tindex; rw [hd]; rfl
    rw [hidx, tfind_tmodify_same, hd]
    exact ⟨_, rfl, recordAllocation_stack_of_populated _ _ _ _
      (hdesc _ d (mem_of_tfind hd)).1⟩

set_option maxRecDepth 100000 in
theorem stack_text_written_once_witness :
    (∀ h d, (h, d) ∈ twoSites.allocationsTable →
      bufGet d.stack 0 ≠ NUL ∧ sampleHash (cstr d.stack) = h) ∧
    (∀ ptr usable frames junk, frames ≠ [] → stackFits frames = true →
      tfind (stackHash sampleHash twoSites.track frames) twoSites.allocationsTable = none →
      ∃ st1 d1, operatorNew sampleHash twoSites ptr usable frames junk = some (st1, ptr) ∧
        tfind (stackHash sampleHash twoSites.track frames) st1.allocationsTable = some d1 ∧
        stackText twoSites.track frames = formattedText frames ∧
        cstr d1.stack = formattedText frames ∧
        d1.stack = formattedText frames
          ++ NUL :: (junk.take (kBufferSize - 1)).drop (textLength frames)) ∧
    (∀ ptr usable frames junk d,
      tfind (stackHash sampleHash twoSites.track frames) twoSites.allocationsTable = some d →
      (stackFits frames = true →
        ∃ r, operatorNew sampleHash twoSites ptr usable frames junk = some r) ∧
      ∀ r, operatorNew sampleHash twoSites ptr usable frames junk = some r →
        ∃ d1, tfind (stackHash sampleHash twoSites.track frames) r.1.allocationsTable
            = some d1 ∧
          d1.stack = d.stack) ∧
    (∀ ptr usable r, makeDelete twoSites ptr usable = some r →
      ∀ k d1, (k, d1) ∈ r.state.allocationsTable →
        ∃ d, (k, d) ∈ twoSites.allocationsTable ∧ d1.stack = d.stack) :=
  stack_text_written_once sampleHash startState
    [Op.alloc 4096 24 siteA [], Op.alloc 8192 40 siteB [], Op.alloc 12288 24 siteA []] twoSites
    (by
      intro ptr usable frames junk hm
      simp only [List.mem_cons, Op.alloc.injEq, List.mem_singleton, List.not_mem_nil,
        or_false] at hm
      rcases hm with ⟨_, _, h, _⟩ | ⟨_, _, h, _⟩ | ⟨_, _, h, _⟩ <;> rw [h] <;> decide)
    (by decide)

/-! ## Allocation followed by deallocation -/

theorem record_ext (a b : AllocationDescription) (h1 : a.count = b.count)
    (h2 : a.alloc_size = b.alloc_size) (h3 : a.stack = b.stack) : a = b := by
  cases a; cases b
  simp only at h1 h2 h3
  rw [h1, h2, h3]

theorem tmodify_tmodify_id {V : Type} (k : Nat) (f g : V → V) (t : List (Nat × V))
    (h : ∀ v, (k, v) ∈ t → g (f v) = v) : tmodify k g (tmodify k f t) = t := by
  induction t with
  | nil => rfl
  | cons e t ih =>
    have ih2 := ih (fun v hv => h v (List.mem_cons_of_mem _ hv))
    have h1 : tmodify k f (e :: t)
        = (if e.1 = k then (e.1, f e.2) else e) :: tmodify k f t := rfl
    by_cases he : e.1 = k
    · have hm : (k, e.2) ∈ e :: t := by
        have : e = (k, e.2) := by cases e; simp_all
        rw [← this]; exact List.mem_cons_self _ _
      have h2 : tmodify k g ((e.1, f e.2) :: tmodify k f t)
          = (e.1, g (f e.2)) :: tmodify k g (tmodify k f t) := by
        simp [tmodify, he]
      rw [h1, if_pos he, h2, ih2, h _ hm]
    · have h2 : tmodify k g (e :: tmodify k f t) = e :: tmodify k g (tmodify k f t) := by
        simp [tmodify, he]
      rw [h1, if_neg he, h2, ih2]

theorem sized_alloc (hashImpl : List Char → Nat) (st : State) (ptr usable : Nat)
    (frames : List (List Char)) (junk : List Char)
    (h : ∀ k d, (k, d) ∈ st.allocationsTable → d.alloc_size < u64) :
    ∀ k d, (k, d) ∈ (operatorNewBody hashImpl st ptr usable frames junk).1.allocationsTable →
      d.alloc_size < u64 := by
  have hpos : 0 < u64 := by unfold u64; positivity
  cases hr : st.table_ready with
  | false => rw [operatorNewBody_not_ready hashImpl st ptr usable frames junk hr]; exact h
  | true =>
    rw [operatorNewBody_ready hashImpl st ptr usable frames junk hr]
    dsimp only
    intro k d hm
    rcases mem_tmodify_tindex.mp hm with ⟨_, hd⟩ | ⟨_, ⟨v, _, hd⟩ | ⟨_, hd⟩⟩
    · exact h k d hd
    · rw [hd]; exact Nat.mod_lt _ hpos
    · rw [hd]; exact Nat.mod_lt _ hpos

theorem sized_dealloc (st : State) (ptr usable : Nat) (r : DeleteOutcome)
    (h : ∀ k d, (k, d) ∈ st.allocationsTable → d.alloc_size < u64)
    (hdel : makeDelete st ptr usable = some r) :
    ∀ k d, (k, d) ∈ r.state.allocationsTable → d.alloc_size < u64 := by
  have hpos : 0 < u64 := by unfold u64; positivity
  cases hr : st.table_ready with
  | false =>
    rw [makeDelete_not_ready st ptr usable hr] at hdel
    rw [← Option.some.inj hdel]; exact h
  | true =>
    cases hf : tfind ptr st.pointersTable with
    | none =>
      rw [makeDelete_untracked st ptr usable hf] at hdel
      rw [← Option.some.inj hdel]; exact h
    | some hash =>
      cases hrec : tfind hash st.allocationsTable with
      | none =>
        rw [makeDelete_missing_record st ptr usable hash hr hf hrec] at hdel
        exact absurd hdel (by simp)
      | some entry =>
        rw [makeDelete_tracked st ptr usable hash entry hr hf hrec] at hdel
        rw [← Option.some.inj hdel]
        dsimp only
        intro k d hm
        have hm2 : (k, d) ∈ tmodify hash (recordDeallocation usable) st.allocationsTable := by
          split at hm
          · exact (mem_terase.mp hm).1
          · exact hm
        rcases mem_tmodify.mp hm2 with ⟨_, hd⟩ | ⟨_, v, _, hd⟩
        · exact h k d hd
        · rw [hd]; exact Nat.mod_lt _ hpos

theorem sized_run (hashImpl : List Char → Nat) (ops : List Op) :
    ∀ st st1 : State, (∀ k d, (k, d) ∈ st.allocationsTable → d.alloc_size < u64) →
      run hashImpl st ops = some st1 →
      ∀ k d, (k, d) ∈ st1.allocationsTable → d.alloc_size < u64 := by
  induction ops with
  | nil =>
    intro st st1 h hrun
    rw [← Option.some.inj hrun]; exact h
  | cons op rest ih =>
    intro st st1 h hrun
    cases op with
    | alloc ptr usable frames junk =>
      have hrun2 := (run_alloc_some hrun).2
      exact ih _ st1 (sized_alloc hashImpl st ptr usable frames junk h) hrun2
    | dealloc ptr usable =>
      cases hdel : makeDelete st ptr usable with
      | none => simp [run, step, hdel] at hrun
      | some r =>
        have hrun2 : run hashImpl r.state rest = some st1 := by
          simpa [run, step, hdel] using hrun
        exact ih _ st1 (sized_dealloc st ptr usable r h hdel) hrun2

/-- An allocation at a fresh address followed by its deallocation restores both
tables, provided the record the allocation meets holds a non-empty stack text. -/
theorem round_trip_tables (hashImpl : List Char → Nat) {n : Nat} (st : State)
    (hc : Consistent n st) (hn : n + 1 < u64)
    (hw : ∀ k d, (k, d) ∈ st.allocationsTable → d.alloc_size < u64)
    (ptr usable : Nat) (frames : List (List Char)) (junk : List Char)
    (hfit : stackFits frames = true)
    (hfresh : tfind ptr st.pointersTable = none)
    (hpop : ∀ d, tfind (stackHash hashImpl st.track frames) st.allocationsTable = some d →
      bufGet d.stack 0 ≠ NUL) :
    ∃ st1, allocThenFree hashImpl st
        { ptr := ptr, usable := usable, frames := frames, junk := junk } usable = some st1 ∧
      st1.allocationsTable = st.allocationsTable ∧
      st1.pointersTable = st.pointersTable := by
  have hnk : ptr ∉ tkeys st.pointersTable := (tfind_eq_none_iff _ _).mp hfresh
  have hptr : terase ptr ((ptr, stackHash hashImpl st.track frames) :: st.pointersTable)
      = st.pointersTable := by
    have : terase ptr ((ptr, stackHash hashImpl st.track frames) :: st.pointersTable)
        = terase ptr st.pointersTable := by
      simp [terase, List.filter_cons]
    rw [this, terase_of_not_mem hnk]
  have hnew := operatorNewBody_ready hashImpl st ptr usable frames junk hc.ready
  rw [assign_fresh hfresh] at hnew
  unfold allocThenFree
  dsimp only
  rw [operatorNew_of_fits hashImpl st ptr usable frames junk hfit, Option.some_bind,
    operatorNewBody_snd]
  generalize (operatorNewBody hashImpl st ptr usable frames junk).1 = s1 at hnew ⊢
  generalize hF : recordAllocation (formatTrack st.track 0 (frames.take kStackSize)).1
    (formatTrack st.track 0 (frames.take kStackSize)).2 usable = F at hnew
  generalize stackHash hashImpl st.track frames = h at hnew hpop hptr
  have hFcount : ∀ d, d.count + 1 < u64 → (F d).count = d.count + 1 := by
    intro d hd
    rw [← hF]; exact recordAllocation_count _ _ _ d hd
  cases hrec : tfind h st.allocationsTable with
  | none =>
    have hk : h ∉ tkeys st.allocationsTable := (tfind_eq_none_iff _ _).mp hrec
    have hidx : tindex h (AllocationDescription.init junk) st.allocationsTable
        = (h, (AllocationDescription.init junk)) :: st.allocationsTable := by
      unfold tindex; rw [hrec]; rfl
    have hmod : tmodify h F ((h, (AllocationDescription.init junk)) :: st.allocationsTable)
        = (h, F (AllocationDescription.init junk)) :: st.allocationsTable := by
      have : tmodify h F ((h, (AllocationDescription.init junk)) :: st.allocationsTable)
          = (h, F (AllocationDescription.init junk)) :: tmodify h F st.allocationsTable := by
        simp [tmodify]
      rw [this, tmodify_of_not_mem hk]
    rw [hidx, hmod] at hnew
    subst hnew
    have hc1 : (F (AllocationDescription.init junk)).count = 1 :=
      hFcount (AllocationDescription.init junk) (by
        show 0 + 1 < u64
        omega)
    have hc2 : (recordDeallocation usable (F (AllocationDescription.init junk))).count = 0 := by
      rw [recordDeallocation_count usable _ (by omega) (by omega), hc1]
    rw [makeDelete_tracked _ ptr usable h (F (AllocationDescription.init junk)) rfl
      (by rw [tfind_cons]; simp) (by rw [tfind_cons]; simp)]
    refine ⟨_, rfl, ?_, hptr⟩
    dsimp only
    rw [if_pos hc2, terase_tmodify_same]
    have : terase h ((h, F (AllocationDescription.init junk)) :: st.allocationsTable)
        = terase h st.allocationsTable := by
      simp [terase, List.filter_cons]
    rw [this, terase_of_not_mem hk]
  | some d =>
    have hmem : (h, d) ∈ st.allocationsTable := mem_of_tfind hrec
    have hcnt := hc.counts h d hmem
    have hidx : tindex h (AllocationDescription.init junk) st.allocationsTable
        = st.allocationsTable := by
      unfold tindex; rw [hrec]; rfl
    rw [hidx] at hnew
    subst hnew
    have hc1 : (F d).count = d.count + 1 := hFcount d (by omega)
    have hc2 : (recordDeallocation usable (F d)).count = d.count := by
      rw [recordDeallocation_count usable _ (by omega) (by omega), hc1]
      omega
    have hback : recordDeallocation usable (F d) = d := by
      apply record_ext
      · exact hc2
      · show ((F d).alloc_size + (u64 - usable % u64)) % u64 = d.alloc_size
        have h1 : (F d).alloc_size = (d.alloc_size + usable) % u64 := by rw [← hF]; rfl
        rw [h1, Nat.add_comm d.alloc_size usable, sub_mod_u64,
          Nat.mod_eq_of_lt (hw h d hmem)]
      · show (F d).stack = d.stack
        rw [← hF]
        exact recordAllocation_stack_of_populated _ _ _ _ (hpop d hrec)
    rw [makeDelete_tracked _ ptr usable h (F d) rfl
      (by rw [tfind_cons]; simp) (by
        show tfind h (tmodify h F st.allocationsTable) = some (F d)
        rw [tfind_tmodify_same, hrec]; rfl)]
    refine ⟨_, rfl, ?_, hptr⟩
    dsimp only
    rw [if_neg (by rw [hc2]; omega)]
    apply tmodify_tmodify_id
    intro v hv
    have hve : v = d := by
      have := tfind_of_mem hc.recKeys hv
      rw [hrec] at this
      exact (Option.some.inj this).symm
    rw [hve]; exact hback

set_option maxRecDepth 100000 in
/-- C16, counterexample.  `emptyOnly` is the ready state reached from `initTables`
by one allocation that captured no frame.  The address 8192 is not in its pointer
table and the frame `collidingFrames` gives a non-empty formatted stack text, of
six bytes with its `NUL`, with the hash of the empty text.  Allocating 8192 there
and deallocating it, with the same usable size, leaves an allocation table
different from the one before: the stack text of the record was rewritten. -/
theorem round_trip_rewrites_empty_stack :
    run sampleHash (initTables startState) [Op.alloc 4096 24 [] []] = some emptyOnly ∧
    8192 ∉ tkeys emptyOnly.pointersTable ∧
    stackText emptyOnly.track collidingFrames ≠ [] ∧
    stackFits collidingFrames = true ∧
    allocThenFree sampleHash emptyOnly
        { ptr := 8192, usable := 40, frames := collidingFrames, junk := [] } 40
      = some emptyRewritten ∧
    emptyRewritten.allocationsTable ≠ emptyOnly.allocationsTable := by
  refine ⟨by decide, by decide, by decide, by decide, by decide, by decide⟩

/-- C16, amended.  Take a run of allocate / deallocate calls from `initTables`
(one call short of `2 ^ 64`).  In every state it reaches, for every address that
is not a key of the pointer table and every call stack whose text fits the arrays
and such that the record stored under the hash of its formatted text, if there is
one, holds a non-empty stack text, `operator new` followed by `makeDelete` of the
returned pointer, with the same usable size, succeeds and leaves an allocation
table and a pointer table equal to the ones before.  The condition on the record
holds for every call stack when every allocation of the run captured at least
one frame.  The run reaches a state when the formatted stack text of every
allocation fits the arrays. -/
theorem alloc_free_round_trip (hashImpl : List Char → Nat) (s0 : State) (ops : List Op)
    (hlen : ops.length + 1 < 2 ^ 64) :
    (opsFit ops = true → ∃ st, run hashImpl (initTables s0) ops = some st) ∧
    ∀ st, run hashImpl (initTables s0) ops = some st →
      (∀ ptr usable frames junk, ptr ∉ tkeys st.pointersTable →
        stackFits frames = true →
        (∀ d, tfind (stackHash hashImpl st.track frames) st.allocationsTable = some d →
          bufGet d.stack 0 ≠ NUL) →
        ∃ st1, allocThenFree hashImpl st
            { ptr := ptr, usable := usable, frames := frames, junk := junk } usable
              = some st1 ∧
          st1.allocationsTable = st.allocationsTable ∧
          st1.pointersTable = st.pointersTable) ∧
      ((∀ ptr usable frames junk, Op.alloc ptr usable frames junk ∈ ops → frames ≠ []) →
        ∀ ptr usable frames junk, ptr ∉ tkeys st.pointersTable →
          stackFits frames = true →
          ∃ st1, allocThenFree hashImpl st
              { ptr := ptr, usable := usable, frames := frames, junk := junk } usable
                = some st1 ∧
            st1.allocationsTable = st.allocationsTable ∧
            st1.pointersTable = st.pointersTable) := by
  have hlen2 : 0 + ops.length + 1 < u64 := by
    have : ops.length + 1 < u64 := by simpa [u64] using hlen
    omega
  refine ⟨run_of_fits hashImpl s0 ops (by omega), ?_⟩
  intro st hrun
  have hc := consistent_of_run hashImpl ops 0 (initTables s0) st (consistent_init s0)
    (by omega) hrun
  have hw := sized_run hashImpl ops (initTables s0) st
    (fun k d hm => by simp [initTables] at hm) hrun
  have key : ∀ ptr usable frames junk, ptr ∉ tkeys st.pointersTable →
      stackFits frames = true →
      (∀ d, tfind (stackHash hashImpl st.track frames) st.allocationsTable = some d →
        bufGet d.stack 0 ≠ NUL) →
      ∃ st1, allocThenFree hashImpl st
          { ptr := ptr, usable := usable, frames := frames, junk := junk } usable
            = some st1 ∧
        st1.allocationsTable = st.allocationsTable ∧
        st1.pointersTable = st.pointersTable :=
    fun ptr usable frames junk hnot hf hpop =>
      round_trip_tables hashImpl st hc hlen2 hw ptr usable frames junk hf
        ((tfind_eq_none_iff _ _).mpr hnot) hpop
  refine ⟨key, ?_⟩
  intro hframes ptr usable frames junk hnot hf
  have hdesc := described_run hashImpl ops (initTables s0) st
    (fun k d hm => by simp [initTables] at hm) hframes hrun
  exact key ptr usable frames junk hnot hf (fun d hd => (hdesc _ d (mem_of_tfind hd)).1)

set_option maxRecDepth 100000 in
theorem alloc_free_round_trip_witness :
    ∃ st, run sampleHash (initTables startState)
        [Op.alloc 4096 24 siteA [], Op.alloc 8192 40 siteB [], Op.dealloc 4096 24] = some st ∧
      (∀ ptr usable frames junk, ptr ∉ tkeys st.pointersTable →
        stackFits frames = true →
        (∀ d, tfind (stackHash sampleHash st.track frames) st.allocationsTable = some d →
          bufGet d.stack 0 ≠ NUL) →
        ∃ st1, allocThenFree sampleHash st
            { ptr := ptr, usable := usable, frames := frames, junk := junk } usable
              = some st1 ∧
          st1.allocationsTable = st.allocationsTable ∧
          st1.pointersTable = st.pointersTable) ∧
      ((∀ ptr usable frames junk, Op.alloc ptr usable frames junk ∈
          [Op.alloc 4096 24 siteA [], Op.alloc 8192 40 siteB [], Op.dealloc 4096 24] →
            frames ≠ []) →
        ∀ ptr usable frames junk, ptr ∉ tkeys st.pointersTable →
          stackFits frames = true →
          ∃ st1, allocThenFree sampleHash st
              { ptr := ptr, usable := usable, frames := frames, junk := junk } usable
                = some st1 ∧
            st1.allocationsTable = st.allocationsTable ∧
            st1.pointersTable = st.pointersTable) :=
  have h := alloc_free_round_trip sampleHash startState
    [Op.alloc 4096 24 siteA [], Op.alloc 8192 40 siteB [], Op.dealloc 4096 24] (by decide)
  (h.1 (by decide)).elim (fun st hrun => ⟨st, hrun, h.2 st hrun⟩)

/-! ## The race of a hook with `deinitTables` -/

/-- C15, the code at a failing schedule.  Let the engine be ready, and let one
thread call a hook (`operator new`, `makeDelete` or `printTables`) while another
calls `deinitTables`.  In the schedule "the hook loads `table_ready`, then
`deinitTables` runs, then the hook takes the lock and runs its block", the hook
has loaded `true`, so it runs its block after both tables were destroyed, and it
accesses a destroyed table.  In the two other schedules (`deinitTables` before
the load, or after the block) it does not. -/
theorem hook_uses_destroyed_tables (hashImpl : List Char → Nat) (st : State) (hook : Hook)
    (hr : st.table_ready = true) :
    interleave hashImpl hook (threadsStart st)
        [ThreadStep.load, ThreadStep.teardown, ThreadStep.locked]
      = some { shared := deinitTables st, destroyed := true, loaded := true,
               usedDestroyed := true } ∧
    interleave hashImpl hook (threadsStart st)
        [ThreadStep.teardown, ThreadStep.load, ThreadStep.locked]
      = some { shared := deinitTables st, destroyed := true, loaded := false,
               usedDestroyed := false } ∧
    ∀ t, interleave hashImpl hook (threadsStart st)
        [ThreadStep.load, ThreadStep.locked, ThreadStep.teardown] = some t →
      t.usedDestroyed = false := by
  refine ⟨?_, ?_, ?_⟩
  · simp [interleave, threadStep, threadsStart, hr]
  · simp [interleave, threadStep, threadsStart, deinitTables]
  · intro t ht
    cases hb : lockedBlock hashImpl st hook with
    | none => simp [interleave, threadStep, threadsStart, hr, hb] at ht
    | some s =>
      simp [interleave, threadStep, threadsStart, hr, hb] at ht
      rw [← ht]

set_option maxRecDepth 100000 in
theorem hook_uses_destroyed_tables_witness :
    interleave sampleHash (Hook.deallocate 8192 40) (threadsStart twoSites)
        [ThreadStep.load, ThreadStep.teardown, ThreadStep.locked]
      = some { shared := deinitTables twoSites, destroyed := true, loaded := true,
               usedDestroyed := true } ∧
    interleave sampleHash (Hook.deallocate 8192 40) (threadsStart twoSites)
        [ThreadStep.teardown, ThreadStep.load, ThreadStep.locked]
      = some { shared := deinitTables twoSites, destroyed := true, loaded := false,
               usedDestroyed := false } ∧
    ∀ t, interleave sampleHash (Hook.deallocate 8192 40) (threadsStart twoSites)
        [ThreadStep.load, ThreadStep.locked, ThreadStep.teardown] = some t →
      t.usedDestroyed = false :=
  hook_uses_destroyed_tables sampleHash twoSites (Hook.deallocate 8192 40) (by decide)

end MemoryProfiler
